import Mathlib

/-!
# Verification of the JNRRD reader/writer (mhalle/jnrrd, src/python/jnrrd)

A shallow embedding of the Python reader (`reader.py`), writer (`writer.py`)
and the specification header parser (`src/spec/jnrrd_header_parser.py`).

Conventions of the embedding:
* Python `str` values are modelled as `List Char` (the repository's inputs are
  ASCII; character classes such as `\w` are taken in their ASCII meaning).
* Raw file contents (`bytes`) are modelled as `List Nat`, one entry per byte;
  byte offsets are list indices.  ASCII text inside files is mapped byte-for-byte.
* JSON values are the inductive `JValue`; Python `dict`s are association lists
  that keep insertion order, with assignment semantics `dictSet` (update in
  place if the key is present, append otherwise), exactly like a Python dict.
* A Python function that can raise becomes a function into `Option`;
  `none` models an escaped exception.
* External collaborators (the stdlib `json.loads`, the compression
  primitives `gzip`/`bz2`/`zstandard`/`lz4`, and numeric text parsing used by
  the ascii codec) are parameters of the embedding, as they are not part of
  this repository.
-/

/-- A JSON value, as produced by `json.loads` and stored in headers.
Objects are ordered association lists (Python dicts keep insertion order). -/
inductive JValue where
  | null : JValue
  | bool : Bool → JValue
  | int : Int → JValue
  | str : List Char → JValue
  | arr : List JValue → JValue
  | obj : List (List Char × JValue) → JValue

/-- `True` for values that are neither a dict nor a list
(Python `not isinstance(item, (dict, list))`). -/
def jIsSimple : JValue → Bool
  | JValue.arr _ => false
  | JValue.obj _ => false
  | _ => true

/-- `v is None` in Python. -/
def JValue.isNull : JValue → Bool
  | JValue.null => true
  | _ => false

/-- Association-list lookup (Python `d[k]` / `k in d`). -/
def assocLookup (kvs : List (List Char × JValue)) (k : List Char) : Option JValue :=
  match kvs with
  | [] => none
  | (k', v) :: tl => if k' = k then some v else assocLookup tl k

/-- Python dict assignment `d[k] = v`: replace in place when the key is
present (keeping its position), append at the end otherwise. -/
def dictSet (kvs : List (List Char × JValue)) (k : List Char) (v : JValue) :
    List (List Char × JValue) :=
  match kvs with
  | [] => [(k, v)]
  | (k', v') :: tl => if k' = k then (k, v) :: tl else (k', v') :: dictSet tl k v

/-- Python `dict.update(other)`: assign every pair of `other` in order. -/
def dictUpdate (kvs other : List (List Char × JValue)) : List (List Char × JValue) :=
  other.foldl (fun acc kv => dictSet acc kv.1 kv.2) kvs

/-- Python `dict.pop(k, default)`, the removal part. -/
def dictRemove (kvs : List (List Char × JValue)) (k : List Char) :
    List (List Char × JValue) :=
  match kvs with
  | [] => []
  | (k', v) :: tl => if k' = k then tl else (k', v) :: dictRemove tl k

/-- One component of a parsed path: an object field or an array index
(Python keeps `str` and `int` entries in one list). -/
inductive Seg where
  | fld : List Char → Seg
  | idx : Nat → Seg
deriving DecidableEq, Repr

/-- The characters that the reader's path regex `([^\.\[\]]+)|\[(\d+)\]`
treats specially. -/
def isSpecialPathChar (c : Char) : Bool := c = '.' ∨ c = '[' ∨ c = ']'

/-- Value of a nonempty decimal digit string (Python `int(...)` on the digits
captured by a path regex). -/
def digitsToNat (ds : List Char) : Nat :=
  ds.foldl (fun acc c => 10 * acc + (c.toNat - 48)) 0

theorem length_dropWhile_le (p : α → Bool) (l : List α) :
    (l.dropWhile p).length ≤ l.length := by
  induction l with
  | nil => simp [List.dropWhile]
  | cons a tl ih =>
    by_cases h : p a
    · simp [List.dropWhile, h]; omega
    · simp [List.dropWhile, h]

/-- State of the left-to-right scan performed by
`re.finditer(r'([^\.\[\]]+)|\[(\d+)\]', path)` in `reader._set_nested_value`:
outside any match, inside a `[^\.\[\]]+` field run (accumulated reversed),
or right after a `[` with the digits seen so far (reversed).  `finditer`
advances one character when nothing matches at the current position, so a
`[` whose digit run is not immediately closed by `]` matches nothing and the
scan resumes just after it — its digits then open an ordinary field run. -/
inductive TokState where
  | start : TokState
  | field : List Char → TokState
  | bracket : List Char → TokState

/-- Tokens emitted at the end of the input for a pending state. -/
def tokFlush : TokState → List Seg
  | TokState.start => []
  | TokState.field acc => [Seg.fld acc.reverse]
  | TokState.bracket ds => if ds = [] then [] else [Seg.fld ds.reverse]

/-- One-pass rendition of the `finditer` scan (notes at `TokState`). -/
def tokRun : TokState → List Char → List Seg
  | st, [] => tokFlush st
  | TokState.start, c :: rest =>
      if c = '[' then tokRun (TokState.bracket []) rest
      else if isSpecialPathChar c then tokRun TokState.start rest
      else tokRun (TokState.field [c]) rest
  | TokState.field acc, c :: rest =>
      if c = '[' then Seg.fld acc.reverse :: tokRun (TokState.bracket []) rest
      else if isSpecialPathChar c then Seg.fld acc.reverse :: tokRun TokState.start rest
      else tokRun (TokState.field (c :: acc)) rest
  | TokState.bracket ds, c :: rest =>
      if c.isDigit then tokRun (TokState.bracket (c :: ds)) rest
      else if c = ']' then
        if ds = [] then tokRun TokState.start rest
        else Seg.idx (digitsToNat ds.reverse) :: tokRun TokState.start rest
      else if c = '[' then
        (if ds = [] then [] else [Seg.fld ds.reverse]) ++ tokRun (TokState.bracket []) rest
      else if c = '.' then
        (if ds = [] then [] else [Seg.fld ds.reverse]) ++ tokRun TokState.start rest
      else tokRun (TokState.field (c :: ds)) rest

/-- `reader._set_nested_value`, path-tokenization part: the component list
produced by `re.finditer(r'([^\.\[\]]+)|\[(\d+)\]', path)`. -/
def tokenizePath (path : List Char) : List Seg := tokRun TokState.start path

/-- `list(range k)` padding: `while len(xs) <= n: xs.append(None)` leaves the
list with length `max (n+1) (len xs)`. -/
def padLen (xs : List JValue) (n : Nat) : List JValue :=
  xs ++ List.replicate (n + 1 - xs.length) JValue.null

/-- The container created for a missing node, decided by the *next* path
component (`[]` if the next component is an int, `{}` otherwise). -/
def newContainer : Seg → JValue
  | Seg.idx _ => JValue.arr []
  | Seg.fld _ => JValue.obj []

/-- The walking loop of `reader._set_nested_value` on a current node.
`none` models a raised exception (e.g. `TypeError` when a string component
meets a non-dict node).  When an int component meets a non-list node, the
Python code rebinds its local `current` to a fresh list, so every later
mutation is lost: the addressed tree is returned unchanged and no exception
is raised (the detached walk only touches freshly created containers). -/
def setNestedAux (v : JValue) : List Seg → JValue → Option JValue
  | [], _ => none  -- unreachable: the caller indexes components[-1] first
  | [Seg.idx n], cur =>
      match cur with
      | JValue.arr xs => some (JValue.arr ((padLen xs n).set n v))
      | cur => some cur
  | [Seg.fld s], cur =>
      match cur with
      | JValue.obj kvs => some (JValue.obj (dictSet kvs s v))
      | _ => none
  | Seg.idx n :: c2 :: rest, cur =>
      match cur with
      | JValue.arr xs =>
          let xs' := padLen xs n
          let child := xs'.getD n JValue.null
          let child' := if child.isNull then newContainer c2 else child
          match setNestedAux v (c2 :: rest) child' with
          | some r => some (JValue.arr (xs'.set n r))
          | none => none
      | cur => some cur
  | Seg.fld s :: c2 :: rest, cur =>
      match cur with
      | JValue.obj kvs =>
          let child := match assocLookup kvs s with
                       | some c => c
                       | none => newContainer c2
          match setNestedAux v (c2 :: rest) child with
          | some r => some (JValue.obj (dictSet kvs s r))
          | none => none
      | _ => none

/-- `reader._set_nested_value(obj, path, value)`: tokenize the path and walk.
An empty component list makes `components[-1]` raise `IndexError` (`none`).
The top-level node is a dict, and stays a dict. -/
def set_nested_value (objv : List (List Char × JValue)) (path : List Char)
    (v : JValue) : Option (List (List Char × JValue)) :=
  match tokenizePath path with
  | [] => none
  | comps =>
      match setNestedAux v comps (JValue.obj objv) with
      | some (JValue.obj kvs) => some kvs
      | _ => none

/-- Split a key at its *first* colon: Python `key.split(':', 1)` when
`':' in key` (`none` when there is no colon). -/
def splitFirstColon : List Char → Option (List Char × List Char)
  | [] => none
  | c :: tl =>
      if c = ':' then some ([], tl)
      else (splitFirstColon tl).map (fun p => (c :: p.1, p.2))

/-- `extension_fields[prefix][path] = value` on the dict-of-dicts of
`reader._process_extension_fields` (create the inner dict on first use). -/
def groupAdd (groups : List (List Char × List (List Char × JValue)))
    (p path : List Char) (v : JValue) :
    List (List Char × List (List Char × JValue)) :=
  match groups with
  | [] => [(p, [(path, v)])]
  | (p', fields) :: tl =>
      if p' = p then (p', dictSet fields path v) :: tl
      else (p', fields) :: groupAdd tl p path v

/-- The field-classification loop of `reader._process_extension_fields`:
keys containing `:` are grouped per prefix, the rest are regular fields. -/
def groupExtAux (hdr : List (List Char × JValue))
    (groups : List (List Char × List (List Char × JValue)))
    (regular : List (List Char × JValue)) :
    List (List Char × List (List Char × JValue)) × List (List Char × JValue) :=
  match hdr with
  | [] => (groups, regular)
  | (k, v) :: tl =>
      match splitFirstColon k with
      | some (p, path) => groupExtAux tl (groupAdd groups p path v) regular
      | none => groupExtAux tl groups (dictSet regular k v)

def groupExtensions (hdr : List (List Char × JValue)) :
    List (List Char × List (List Char × JValue)) × List (List Char × JValue) :=
  groupExtAux hdr [] []

/-- Build one extension's tree: start from `{}` and apply
`_set_nested_value` for each `(path, value)` pair in order. -/
def buildTree : List (List Char × JValue) → List (List Char × JValue) →
    Option (List (List Char × JValue))
  | [], tree => some tree
  | (path, v) :: tl, tree =>
      match set_nested_value tree path v with
      | some tree' => buildTree tl tree'
      | none => none

/-- Build every extension's tree (`extensions[prefix] = {}` then the merge
loop), keeping prefix insertion order. -/
def buildExtensions : List (List Char × List (List Char × JValue)) →
    Option (List (List Char × List (List Char × JValue)))
  | [] => some []
  | (p, fields) :: tl => do
      let t ← buildTree fields []
      let r ← buildExtensions tl
      some ((p, t) :: r)

/-- `reader._process_extension_fields(header)`.  Regular fields are kept,
extension fields are grouped per prefix and merged into trees; when any
extension exists, the `extensions` declaration (defaulting to `{}`) and one
`jnrrd_ext_<prefix>` entry per prefix are appended. -/
def process_extension_fields (header : List (List Char × JValue)) :
    Option (List (List Char × JValue)) :=
  let extensions_decl := (assocLookup header ("extensions".data)).getD (JValue.obj [])
  let (extension_fields, regular_fields) := groupExtensions header
  match buildExtensions extension_fields with
  | none => none
  | some [] => some regular_fields
  | some exts =>
      some (exts.foldl
        (fun acc pt => dictSet acc ("jnrrd_ext_".data ++ pt.1) (JValue.obj pt.2))
        (dictSet regular_fields ("extensions".data) extensions_decl))

/-! ## The spec module's path parser (`src/spec/jnrrd_header_parser.py`) -/

/-- Python `\w` on ASCII input: letters, digits and underscore. -/
def isWordChar (c : Char) : Bool := c.isAlphanum ∨ c = '_'

/-- State of the `while i < len(path)` scan of `parse_path`.  At each
position the loop first tries `re.match(r'(\w+)\[(\d+)\]', path[i:])`; on
success it emits the word and the index and consumes an optional following
dot; on failure it takes everything up to the next `.` (or the end) as one
field component.  Character by character this is:
* `seg acc`: collecting the `\w+` run from the segment start (reversed);
* `brk w ds`: after `w` and `[`, collecting the digit run `ds` (reversed);
  any character that breaks the pattern makes the whole regex fail, and the
  text from the segment start then runs to the next dot (`raw` mode);
* `raw acc`: collecting everything up to the next `.` (reversed);
* `skip`: right after a matched `]`, where a single `.` is consumed. -/
inductive PPState where
  | seg : List Char → PPState
  | brk : List Char → List Char → PPState
  | raw : List Char → PPState
  | skip : PPState

/-- Components appended when the scan hits the end of the path. -/
def ppFlush : PPState → List Seg
  | PPState.seg acc => if acc = [] then [] else [Seg.fld acc.reverse]
  | PPState.brk w ds => [Seg.fld ((ds ++ '[' :: w).reverse)]
  | PPState.raw acc => [Seg.fld acc.reverse]
  | PPState.skip => []

/-- One-pass rendition of `parse_path`'s scan (notes at `PPState`). -/
def ppRun : PPState → List Char → List Seg
  | st, [] => ppFlush st
  | PPState.seg acc, c :: rest =>
      if isWordChar c then ppRun (PPState.seg (c :: acc)) rest
      else if c = '.' then Seg.fld acc.reverse :: ppRun (PPState.seg []) rest
      else if c = '[' then
        if acc = [] then ppRun (PPState.raw ['[']) rest
        else ppRun (PPState.brk acc []) rest
      else ppRun (PPState.raw (c :: acc)) rest
  | PPState.brk w ds, c :: rest =>
      if c.isDigit then ppRun (PPState.brk w (c :: ds)) rest
      else if c = ']' ∧ ds ≠ [] then
        Seg.fld w.reverse :: Seg.idx (digitsToNat ds.reverse) :: ppRun PPState.skip rest
      else if c = '.' then
        Seg.fld ((ds ++ '[' :: w).reverse) :: ppRun (PPState.seg []) rest
      else ppRun (PPState.raw (c :: ds ++ '[' :: w)) rest
  | PPState.raw acc, c :: rest =>
      if c = '.' then Seg.fld acc.reverse :: ppRun (PPState.seg []) rest
      else ppRun (PPState.raw (c :: acc)) rest
  | PPState.skip, c :: rest =>
      if c = '.' then ppRun (PPState.seg []) rest
      else if isWordChar c then ppRun (PPState.seg [c]) rest
      else ppRun (PPState.raw [c]) rest

/-- `parse_path` from `src/spec/jnrrd_header_parser.py`. -/
def parse_path (path : List Char) : List Seg := ppRun (PPState.seg []) path

/-! ## The writer's flattener (`writer._flatten_object` / `_flatten_extensions`) -/

/-- Decimal rendering of an array index for `f"{path}[{i}]"`. -/
def natToDigits (n : Nat) : List Char := (Nat.repr n).data

mutual
/-- `writer._flatten_object(prefix, obj, path, result)`: dicts recurse per
key with `path.key`; lists of only simple values are stored whole at
`prefix:path`; other lists recurse per index with `path[i]`; any other value
is stored at `prefix:path`. -/
def flatten_object (pre : List Char) (v : JValue) (path : List Char)
    (result : List (List Char × JValue)) : List (List Char × JValue) :=
  match v with
  | JValue.obj kvs => flatten_fields pre kvs path result
  | JValue.arr xs =>
      if xs.all jIsSimple then dictSet result (pre ++ ':' :: path) (JValue.arr xs)
      else flatten_items pre xs 0 path result
  | v => dictSet result (pre ++ ':' :: path) v

/-- The `for key, value in obj.items()` loop of `_flatten_object`. -/
def flatten_fields (pre : List Char) (kvs : List (List Char × JValue))
    (path : List Char) (result : List (List Char × JValue)) :
    List (List Char × JValue) :=
  match kvs with
  | [] => result
  | (k, v) :: tl =>
      flatten_fields pre tl path
        (flatten_object pre v (if path = [] then k else path ++ '.' :: k) result)

/-- The `for i, item in enumerate(obj)` loop of `_flatten_object`. -/
def flatten_items (pre : List Char) (xs : List JValue) (i : Nat)
    (path : List Char) (result : List (List Char × JValue)) :
    List (List Char × JValue) :=
  match xs with
  | [] => result
  | v :: tl =>
      flatten_items pre tl (i + 1) path
        (flatten_object pre v (path ++ '[' :: natToDigits i ++ [']']) result)
end

/-- Flatten a list of extension trees in order, accumulating into one flat
dict — the `jnrrd_ext_*` part of `writer._flatten_extensions`. -/
def flattenExtensionTrees (exts : List (List Char × List (List Char × JValue)))
    (init : List (List Char × JValue)) : List (List Char × JValue) :=
  exts.foldl (fun acc pt => flatten_object pt.1 (JValue.obj pt.2) [] acc) init

/-- The composition checked by the round-trip property: unflatten the flat
records into per-namespace extension trees
(`reader._process_extension_fields` / `_set_nested_value`), then flatten the
trees back into flat records (`writer._flatten_object`). -/
def unflattenThenFlatten (records : List (List Char × JValue)) :
    Option (List (List Char × JValue)) :=
  match buildExtensions (groupExtensions records).1 with
  | none => none
  | some exts => some (flattenExtensionTrees exts [])

/-! ## Header record stream (`reader.read_header`) -/

/-- Python's `bytes.strip()` character set (ASCII whitespace bytes). -/
def isSpaceByte (b : Nat) : Bool :=
  b = 32 ∨ b = 9 ∨ b = 10 ∨ b = 13 ∨ b = 11 ∨ b = 12

/-- `bytes.strip()`: remove whitespace bytes from both ends. -/
def pythonStrip (bs : List Nat) : List Nat :=
  ((bs.dropWhile isSpaceByte).reverse.dropWhile isSpaceByte).reverse

/-- `f.readline()` on the remaining bytes: everything up to and including
the first newline byte (the whole rest at EOF). -/
def readLine : List Nat → List Nat × List Nat
  | [] => ([], [])
  | b :: tl =>
      if b = 10 then ([10], tl)
      else
        let p := readLine tl
        (b :: p.1, p.2)

theorem readLine_append (bs : List Nat) : (readLine bs).1 ++ (readLine bs).2 = bs := by
  induction bs with
  | nil => simp [readLine]
  | cons b tl ih =>
    by_cases hb : b = 10
    · simp [readLine, hb]
    · simp [readLine, hb, ih]

theorem readLine_rest_length {bs : List Nat} (h : (readLine bs).1 ≠ []) :
    (readLine bs).2.length < bs.length := by
  have := readLine_append bs
  have hlen : (readLine bs).1.length + (readLine bs).2.length = bs.length := by
    rw [← List.length_append, this]
  have : 0 < (readLine bs).1.length := List.length_pos.mpr h
  omega

theorem pythonStrip_nil : pythonStrip [] = [] := rfl

theorem pythonStrip_ne_nil {bs : List Nat} (h : pythonStrip bs ≠ []) : bs ≠ [] := by
  intro hbs; subst hbs; exact h pythonStrip_nil

/-- The sequence of lines `f.readline()` yields for a byte stream: each
line keeps its terminating newline; a final unterminated line is kept too.
(Once the stream is exhausted, `readline` returns `b''` forever.) -/
def lineStep (b : Nat) (gs : List (List Nat)) : List (List Nat) :=
  if b = 10 then [10] :: gs
  else
    match gs with
    | [] => [[b]]
    | g :: t => (b :: g) :: t

def lineSplit (bs : List Nat) : List (List Nat) := bs.foldr lineStep []

/-- The header-scanning loop of `reader.read_header`, over the successive
`readline` results, the accumulated raw header dict and the current byte
position.  `jl` models the external `json.loads`; a decoded non-dict value
is modeled as a failed `header.update` (`none`) — Python's `dict.update`
raises on a decoded scalar, though it would accept a JSON array of
key-value pairs; the scan is analysed below only on object-valued lines
and on lines where `json.loads` itself fails.  A blank (all-whitespace)
line — and the `b''` read at the end of the stream — stops with the
position *after* it; a nonempty line that fails to decode stops with the
position of its *start*. -/
def readHeaderLines (jl : List Nat → Option JValue) :
    List (List Nat) → List (List Char × JValue) → Nat →
    Option (List (List Char × JValue) × Nat)
  | [], hdr, pos => some (hdr, pos)
  | l :: tl, hdr, pos =>
      if pythonStrip l = [] then some (hdr, pos + l.length)
      else
        match jl (pythonStrip l) with
        | some (JValue.obj kvs) => readHeaderLines jl tl (dictUpdate hdr kvs) (pos + l.length)
        | some _ => none
        | none => some (hdr, pos)

/-- `reader.read_header` given the header file's bytes: run the scanning
loop from position 0, post-process extensions, and record
`__data_start_pos`. -/
def read_header (jl : List Nat → Option JValue) (fileBytes : List Nat) :
    Option (List (List Char × JValue)) :=
  match readHeaderLines jl (lineSplit fileBytes) [] 0 with
  | none => none
  | some (hdr, pos) =>
      match process_extension_fields hdr with
      | none => none
      | some ph => some (dictSet ph ("__data_start_pos".data) (JValue.int pos))

/-! ## Binary data codec (`reader._read_*_data`, `_get_numpy_dtype`) -/

/-- An N-dimensional array as the codec layer sees it: a shape and the flat
list of elements, each element being its `itemsize` raw bytes. -/
structure NDArr where
  shape : List Nat
  elems : List (List Nat)
deriving DecidableEq, Repr

/-- `Π sizes` (`total_elements` accumulation loop). -/
def listProd (sizes : List Nat) : Nat := sizes.foldl (· * ·) 1

/-- Split a byte buffer into consecutive `w`-byte elements: the scan
accumulates the current element (reversed) and emits it every `w` bytes
(`k` counts the bytes already in `acc`); a shorter final group is emitted
as-is. -/
def chunksAux (w : Nat) : List Nat → Nat → List Nat → List (List Nat)
  | [], _, acc => if acc = [] then [] else [acc.reverse]
  | b :: tl, k, acc =>
      if k + 1 = w then (b :: acc).reverse :: chunksAux w tl 0 []
      else chunksAux w tl (k + 1) (b :: acc)

/-- Split a byte buffer into consecutive `w`-byte elements. -/
def chunksOf (w : Nat) (bs : List Nat) : List (List Nat) :=
  if w = 0 then [] else chunksAux w bs 0 []

/-- The recurrence `chunksOf` satisfies: peel `w` bytes at a time. -/
theorem chunksAux_eq (w : Nat) (hw : 0 < w) :
    ∀ (bs : List Nat) (k : Nat) (acc : List Nat), acc.length = k → k < w →
      chunksAux w bs k acc =
        if acc.reverse ++ bs = [] then []
        else (acc.reverse ++ bs).take w :: chunksOf w ((acc.reverse ++ bs).drop w) := by
  intro bs
  induction bs with
  | nil =>
    intro k acc hlen hk
    simp only [chunksAux, List.append_nil]
    by_cases hacc : acc = []
    · simp [hacc]
    · have hrev : acc.reverse ≠ [] := by simpa using hacc
      rw [if_neg hacc, if_neg hrev]
      have h1 : acc.reverse.take w = acc.reverse := by
        apply List.take_of_length_le
        simp only [List.length_reverse]; omega
      have h2 : acc.reverse.drop w = [] := by
        apply List.drop_eq_nil_of_le
        simp only [List.length_reverse]; omega
      rw [h1, h2]
      simp [chunksOf, chunksAux, Nat.pos_iff_ne_zero.mp hw]
  | cons b tl ih =>
    intro k acc hlen hk
    have hne : acc.reverse ++ b :: tl ≠ [] := by simp
    rw [if_neg hne]
    simp only [chunksAux]
    by_cases hfull : k + 1 = w
    · rw [if_pos hfull]
      have key : acc.reverse ++ b :: tl = (acc.reverse ++ [b]) ++ tl := by simp
      have hlen2 : (acc.reverse ++ [b]).length = w := by
        simp only [List.length_append, List.length_reverse, List.length_cons,
          List.length_nil]
        omega
      have htake : (acc.reverse ++ b :: tl).take w = (b :: acc).reverse := by
        rw [key, List.take_left' hlen2]
        simp
      have hdrop : (acc.reverse ++ b :: tl).drop w = tl := by
        rw [key, List.drop_left' hlen2]
      rw [htake, hdrop, chunksOf, if_neg (Nat.pos_iff_ne_zero.mp hw)]
    · rw [if_neg hfull]
      have := ih (k + 1) (b :: acc) (by simp [hlen]) (by omega)
      rw [this]
      have hco : (b :: acc).reverse ++ tl = acc.reverse ++ b :: tl := by simp
      rw [hco]
      have : acc.reverse ++ b :: tl ≠ [] := hne
      rw [if_neg this]

theorem chunksOf_cons (w : Nat) (hw : 0 < w) (bs : List Nat) (hbs : bs ≠ []) :
    chunksOf w bs = bs.take w :: chunksOf w (bs.drop w) := by
  have := chunksAux_eq w hw bs 0 [] rfl hw
  simp only [List.reverse_nil, List.nil_append] at this
  rw [chunksOf, if_neg (Nat.pos_iff_ne_zero.mp hw), this, if_neg hbs]

theorem chunksOf_nil (w : Nat) : chunksOf w [] = [] := by
  by_cases hw : w = 0
  · simp [chunksOf, hw]
  · simp [chunksOf, hw, chunksAux]

/-- `np.frombuffer(buf, dtype)`: fails unless the buffer length is a
multiple of the element width. -/
def np_frombuffer (buf : List Nat) (itemsize : Nat) : Option (List (List Nat)) :=
  if itemsize ≠ 0 ∧ buf.length % itemsize = 0 then some (chunksOf itemsize buf)
  else none

/-- `data.reshape(sizes)`: fails unless the element count matches `Π sizes`. -/
def np_reshape (elems : List (List Nat)) (sizes : List Nat) : Option NDArr :=
  if elems.length = listProd sizes then some ⟨sizes, elems⟩ else none

/-- `reader._read_raw_data`: seek, read exactly `Π sizes × itemsize` bytes,
fail when fewer are available, build and reshape.  (`if sizes:` skips the
reshape for an empty size list.) -/
def read_raw_data (fileBytes : List Nat) (pos : Nat) (itemsize : Nat)
    (sizes : List Nat) : Option NDArr :=
  if ((fileBytes.drop pos).take (listProd sizes * itemsize)).length <
      listProd sizes * itemsize then none
  else
    (np_frombuffer ((fileBytes.drop pos).take (listProd sizes * itemsize))
        itemsize).bind fun elems =>
      if sizes = [] then some ⟨[elems.length], elems⟩ else np_reshape elems sizes

/-- `reader._read_gzip_data` and its three structurally identical siblings
`_read_bzip2_data` / `_read_zstd_data` / `_read_lz4_data` (they differ only
in the external decompression primitive, passed here as `decompress`):
read the rest of the file, decompress the whole stream, fail when fewer
than `Π sizes × itemsize` bytes result, then build and reshape the *entire*
decompressed buffer (there is no truncation step). -/
def read_compressed_data (decompress : List Nat → Option (List Nat))
    (fileBytes : List Nat) (pos : Nat) (itemsize : Nat) (sizes : List Nat) :
    Option NDArr :=
  (decompress (fileBytes.drop pos)).bind fun d =>
    if d.length < listProd sizes * itemsize then none
    else
      (np_frombuffer d itemsize).bind fun elems =>
        if sizes = [] then some ⟨[elems.length], elems⟩ else np_reshape elems sizes

/-- Python `str.isalnum()` on ASCII bytes. -/
def isAlnumByte (b : Nat) : Bool :=
  (48 ≤ b ∧ b ≤ 57) ∨ (65 ≤ b ∧ b ≤ 90) ∨ (97 ≤ b ∧ b ≤ 122)

/-- Value of one hex digit byte, if it is one. -/
def hexDigitVal (b : Nat) : Option Nat :=
  if 48 ≤ b ∧ b ≤ 57 then some (b - 48)
  else if 65 ≤ b ∧ b ≤ 70 then some (b - 55)
  else if 97 ≤ b ∧ b ≤ 102 then some (b - 87)
  else none

/-- `bytes.fromhex`: pairs of hex digits; an odd length or a non-hex
character raises. -/
def bytesFromHex : List Nat → Option (List Nat)
  | [] => some []
  | [_] => none
  | h :: l :: tl =>
      match hexDigitVal h, hexDigitVal l, bytesFromHex tl with
      | some hv, some lv, some r => some ((16 * hv + lv) :: r)
      | _, _, _ => none

/-- `reader._read_hex_data`: keep only alphanumeric characters, decode hex
pairs, build elements, fail when fewer than `Π sizes` elements result, and
truncate to exactly `Π sizes` elements before the reshape. -/
def read_hex_data (fileBytes : List Nat) (pos : Nat) (itemsize : Nat)
    (sizes : List Nat) : Option NDArr :=
  (bytesFromHex ((fileBytes.drop pos).filter isAlnumByte)).bind fun bin =>
    (np_frombuffer bin itemsize).bind fun elems =>
      if elems.length < listProd sizes then none
      else
        if sizes = [] then some ⟨[elems.length], elems⟩
        else np_reshape (elems.take (listProd sizes)) sizes

/-- One-pass accumulator scan emitting maximal whitespace-free words (the
current word is accumulated reversed and flushed at each space run). -/
def splitWordsAux : List Nat → List Nat → List (List Nat)
  | [], acc => if acc = [] then [] else [acc.reverse]
  | b :: tl, acc =>
      if isSpaceByte b then
        if acc = [] then splitWordsAux tl []
        else acc.reverse :: splitWordsAux tl []
      else splitWordsAux tl (b :: acc)

/-- Split a byte list into maximal whitespace-free words — the combined
effect of `splitlines()` + `line.strip()` + `line.split()` in
`reader._read_ascii_data`. -/
def splitWords (bs : List Nat) : List (List Nat) := splitWordsAux bs []

/-- `reader._read_ascii_data`: tokenize the text into words, convert each
word to one element (the numeric parsing and dtype conversion performed by
`int`/`float`/`complex` plus `np.array` is the external parameter
`tokToElem`), fail when fewer than `Π sizes` elements result, truncate to
`Π sizes` and reshape. -/
def read_ascii_data (tokToElem : List Nat → Option (List Nat))
    (fileBytes : List Nat) (pos : Nat) (sizes : List Nat) : Option NDArr :=
  ((splitWords (fileBytes.drop pos)).mapM tokToElem).bind fun elems =>
    if elems.length < listProd sizes then none
    else
      if sizes = [] then some ⟨[elems.length], elems⟩
      else np_reshape (elems.take (listProd sizes)) sizes

/-- `reader._get_numpy_dtype`, reduced to what the codec layer consumes:
the element byte width of each supported type name (`bfloat16` is mapped to
`float16`, hence 2 bytes); an unknown name raises.  Endianness selects a
byte-order variant of the same width, and any value other than
`little`/`big` raises. -/
def type_itemsize : List Char → Option Nat
  | cs =>
      if cs = "int8".data ∨ cs = "uint8".data then some 1
      else if cs = "int16".data ∨ cs = "uint16".data ∨ cs = "float16".data ∨
          cs = "bfloat16".data then some 2
      else if cs = "int32".data ∨ cs = "uint32".data ∨ cs = "float32".data then some 4
      else if cs = "int64".data ∨ cs = "uint64".data ∨ cs = "float64".data ∨
          cs = "complex64".data then some 8
      else if cs = "complex128".data then some 16
      else none

/-- The element width `reader._get_numpy_dtype` resolves.  The endianness
check `if endian:` is skipped for an absent *or empty* endian string (both
falsy), keeping the native byte order; a nonempty value other than
`little`/`big` raises.  Either byte order keeps the same width. -/
def get_numpy_itemsize (t : List Char) (endian : Option (List Char)) : Option Nat :=
  match type_itemsize t with
  | none => none
  | some w =>
      match endian with
      | none => some w
      | some e =>
          if e = [] ∨ e = "little".data ∨ e = "big".data then some w else none

/-- `os.path.isabs` (POSIX). -/
def pathIsAbs (p : List Char) : Bool := p.head? = some '/'

/-- `os.path.dirname` (POSIX `posixpath.dirname`): keep everything up to
and including the last `/` (the `head`); when that head is empty or made of
slashes only it is returned as-is (so `dirname('/x')` is `/`), otherwise
its trailing slashes are stripped. -/
def pathDirname (p : List Char) : List Char :=
  if (p.reverse.dropWhile (fun c => ¬ c = '/')).all (fun c => c = '/') then
    (p.reverse.dropWhile (fun c => ¬ c = '/')).reverse
  else
    ((p.reverse.dropWhile (fun c => ¬ c = '/')).dropWhile
      (fun c => c = '/')).reverse

/-- `os.path.join(a, b)` for a relative `b` (POSIX). -/
def pathJoin (a b : List Char) : List Char :=
  if a = [] then b
  else if a.getLast? = some '/' then a ++ b
  else a ++ '/' :: b

/-- `f.readline()` repeated `n` times from the start of a file: the final
`f.tell()` offset. -/
def skipLines (bs : List Nat) : Nat → Nat
  | 0 => 0
  | n + 1 => (readLine bs).1.length + skipLines (readLine bs).2 n

/-- Read an integer-valued optional header field: `none` = the field is
present with a non-int value (arithmetic on it raises); `some none` = the
field is absent; `some (some n)` = the field holds `n`. -/
def getIntOpt (header : List (List Char × JValue)) (k : List Char) :
    Option (Option Int) :=
  match assocLookup header k with
  | none => some none
  | some (JValue.int n) => some (some n)
  | some _ => none

/-- Lines 255–280 of `reader._read_data`: which file holds the payload and
at which byte offset it starts.  `fs` models the filesystem (`none` = the
`open` call raises).  Inline data starts at `__data_start_pos` (default 0);
a declared `data_file` is resolved against the header file's directory
unless absolute, and resets the start to 0; `line_skip` (only together with
`data_file`) re-reads the detached file, skipping that many lines;
`byte_skip` is added at the end in every mode. -/
def read_data_loc (fs : List Char → Option (List Nat)) (filename : List Char)
    (header : List (List Char × JValue)) : Option (List Char × Int) :=
  (getIntOpt header ("__data_start_pos".data)).bind fun base =>
  match assocLookup header ("data_file".data) with
  | none =>
      (getIntOpt header ("byte_skip".data)).bind fun bs =>
      some (filename, (base.getD 0) + bs.getD 0)
  | some (JValue.str dp) =>
      match assocLookup header ("line_skip".data) with
      | none =>
          (getIntOpt header ("byte_skip".data)).bind fun bs =>
          some (if pathIsAbs dp then dp else pathJoin (pathDirname filename) dp,
                0 + bs.getD 0)
      | some (JValue.int ls) =>
          match fs (if pathIsAbs dp then dp
                    else pathJoin (pathDirname filename) dp) with
          | none => none
          | some db =>
              (getIntOpt header ("byte_skip".data)).bind fun bs =>
              some (if pathIsAbs dp then dp else pathJoin (pathDirname filename) dp,
                    (skipLines db ls.toNat : Int) + bs.getD 0)
      | some _ => none
  | some _ => none

/-- A JSON `sizes` value as a list of extents.  The Python code performs no
validation; a non-list or non-integer entry fails later arithmetic, and the
spec requires positive extents, so negative entries are rejected here. -/
def asSizes : JValue → Option (List Nat)
  | JValue.arr xs =>
      xs.mapM (fun v => match v with
        | JValue.int n => if n < 0 then none else some n.toNat
        | _ => none)
  | _ => none

/-- The external byte-transform primitives used by `reader._read_data`
(the compression libraries, and the per-token numeric parsing of the ascii
codec); they are collaborators of the repository, not part of it. -/
structure Codecs where
  gunzip : List Nat → Option (List Nat)
  bunzip2 : List Nat → Option (List Nat)
  unzstd : List Nat → Option (List Nat)
  unlz4 : List Nat → Option (List Nat)
  tokToElem : List Nat → Option (List Nat)

/-- `reader._read_data(filename, header)`: require `type`, `dimension` and
`sizes`, resolve dtype, payload location and offset, then dispatch on the
encoding (default `raw`).  A negative final offset makes `f.seek` raise. -/
def read_data (cod : Codecs) (fs : List Char → Option (List Nat))
    (filename : List Char) (header : List (List Char × JValue)) : Option NDArr :=
  (assocLookup header ("type".data)).bind fun tv =>
  (assocLookup header ("dimension".data)).bind fun _ =>
  (assocLookup header ("sizes".data)).bind fun sv =>
  match tv with
  | JValue.str t =>
    (asSizes sv).bind fun sizes =>
    (match assocLookup header ("encoding".data) with
     | none => some ("raw".data)
     | some (JValue.str e) => some e
     | some _ => none).bind fun enc =>
    (match assocLookup header ("endian".data) with
     | none => some none
     | some (JValue.str e) => some (some e)
     | some _ => none).bind fun endian =>
    (get_numpy_itemsize t endian).bind fun itemsize =>
    (read_data_loc fs filename header).bind fun dfstart =>
    if dfstart.2 < 0 then none
    else
      (fs dfstart.1).bind fun db =>
      if enc = "raw".data then read_raw_data db dfstart.2.toNat itemsize sizes
      else if enc = "gzip".data ∨ enc = "gz".data then
        read_compressed_data cod.gunzip db dfstart.2.toNat itemsize sizes
      else if enc = "bzip2".data ∨ enc = "bz2".data then
        read_compressed_data cod.bunzip2 db dfstart.2.toNat itemsize sizes
      else if enc = "zstd".data then
        read_compressed_data cod.unzstd db dfstart.2.toNat itemsize sizes
      else if enc = "lz4".data then
        read_compressed_data cod.unlz4 db dfstart.2.toNat itemsize sizes
      else if enc = "ascii".data ∨ enc = "text".data ∨ enc = "txt".data then
        read_ascii_data cod.tokToElem db dfstart.2.toNat sizes
      else if enc = "hex".data then read_hex_data db dfstart.2.toNat itemsize sizes
      else none
  | _ => none

/-- `reader.read(filename)`: read and post-process the header, *pop*
`__data_start_pos` out of it, and hand the remaining header to
`_read_data` (which therefore falls back to `header.get('__data_start_pos',
0) = 0` for inline payloads). -/
def jnrrd_read (cod : Codecs) (jl : List Nat → Option JValue)
    (fs : List Char → Option (List Nat)) (filename : List Char) :
    Option (List (List Char × JValue) × NDArr) :=
  (fs filename).bind fun fileBytes =>
  (read_header jl fileBytes).bind fun header =>
  (read_data cod fs filename (dictRemove header ("__data_start_pos".data))).bind
    fun data =>
  some (dictRemove header ("__data_start_pos".data), data)

/-! ## Concrete inputs used by the claims -/

/-- ASCII text as file bytes. -/
def bytesOfAscii (s : List Char) : List Nat := s.map Char.toNat

def c1Line1 : List Nat := bytesOfAscii ("\x7b\"jnrrd\":\"0004\"\x7d\n".data)
def c1Line2 : List Nat := bytesOfAscii ("\x7b\"type\":\"float32\"\x7d\n".data)
def c1Line3 : List Nat := bytesOfAscii ("\x7b\"dimension\":2\x7d\n".data)
def c1Line4 : List Nat := bytesOfAscii ("\x7b\"sizes\":[2,2]\x7d\n".data)
def c1Line5 : List Nat := bytesOfAscii ("\x7b\"nifti:intent_code\":2\x7d\n".data)

/-- A gzip stream (header, one stored deflate block holding the 16 bytes of
the four little-endian float32 values 1.0, 2.0, 3.0, 4.0, then the trailer).
Its exact content is irrelevant to the theorems below: the reader never
reaches it. -/
def c1Payload : List Nat :=
  [31, 139, 8, 0, 0, 0, 0, 0, 0, 3, 1, 16, 0, 239, 255,
   0, 0, 128, 63, 0, 0, 0, 64, 0, 0, 64, 64, 0, 0, 128, 64,
   0, 0, 0, 0, 16, 0, 0, 0]

/-- The claim's scenario file: the five header records, a blank line, the
payload.  The header part is 92 bytes, so the blank line ends at offset 93. -/
def c1File : List Nat :=
  c1Line1 ++ c1Line2 ++ c1Line3 ++ c1Line4 ++ c1Line5 ++ [10] ++ c1Payload

/-- A concrete instance of the external `json.loads` covering the lines of
the scenario files used in the claims; anything else fails to decode. -/
def jsonFix (bs : List Nat) : Option JValue :=
  if bs = pythonStrip c1Line1 then
    some (JValue.obj [("jnrrd".data, JValue.str ("0004".data))])
  else if bs = pythonStrip c1Line2 then
    some (JValue.obj [("type".data, JValue.str ("float32".data))])
  else if bs = pythonStrip c1Line3 then
    some (JValue.obj [("dimension".data, JValue.int 2)])
  else if bs = pythonStrip c1Line4 then
    some (JValue.obj [("sizes".data, JValue.arr [JValue.int 2, JValue.int 2])])
  else if bs = pythonStrip c1Line5 then
    some (JValue.obj [("nifti:intent_code".data, JValue.int 2)])
  else if bs = bytesOfAscii ("\x7b\"a\":1\x7d".data) then
    some (JValue.obj [("a".data, JValue.int 1)])
  else if bs = bytesOfAscii ("\x7b\"b\":2\x7d".data) then
    some (JValue.obj [("b".data, JValue.int 2)])
  else none

/-- The filesystem of the C1 scenario: one file, `f.jnrrd`. -/
def c1Fs (n : List Char) : Option (List Nat) :=
  if n = "f.jnrrd".data then some c1File else none

/-- Codec primitives that always fail; the C1 theorem holds for *every*
codec set, this one witnesses that the decompressors are never consulted. -/
def noCodecs : Codecs :=
  ⟨fun _ => none, fun _ => none, fun _ => none, fun _ => none, fun _ => none⟩

/-! ## Claim theorems -/

/-- C1 (code_bug).  The claim says `read` decodes the inline payload
starting at the byte immediately after the first empty header line (offset
93 here), returning the 2×2 float32 array of the gzip payload.  The code
does not: `read` pops `__data_start_pos` from the header *before* calling
`_read_data`, so `_read_data` falls back to offset 0 — and, the scenario's
records not containing an `encoding` field, the payload is decoded as `raw`.
Concretely, for every codec set, `read` returns the array whose raw bytes
are the first 16 bytes of the *file* (the text `{"jnrrd":"0004"}`), not the
16 bytes at the recorded data offset 93 — even though `read_header` itself
correctly records `__data_start_pos = 93` and the extension tree does hold
`nifti.intent_code = 2`. -/
theorem c1_read_ignores_data_start_pos :
    (∀ cod : Codecs, ∃ hdr,
        jnrrd_read cod jsonFix c1Fs ("f.jnrrd".data) =
          some (hdr, ⟨[2, 2], chunksOf 4 (c1File.take 16)⟩) ∧
        assocLookup hdr ("jnrrd_ext_nifti".data) =
          some (JValue.obj [("intent_code".data, JValue.int 2)])) ∧
    (∃ ph, read_header jsonFix c1File = some ph ∧
        assocLookup ph ("__data_start_pos".data) = some (JValue.int 93)) ∧
    c1File.take 16 = bytesOfAscii ("\x7b\"jnrrd\":\"0004\"\x7d".data) ∧
    c1File.drop 93 = c1Payload ∧
    chunksOf 4 (c1File.take 16) ≠ chunksOf 4 (c1Payload.take 16) := by
  refine ⟨fun cod => ⟨_, rfl, rfl⟩, ⟨_, rfl, rfl⟩, by decide, by decide, by decide⟩

/-- C6 (confirmed).  Setting `items[5]` then `items[2]` through the
extension unflattener yields, under `items`, an array of length exactly 6
with `null` at indices 0, 1, 3, 4 and the assigned values at 2 and 5. -/
theorem c6_sparse_index_null_padding :
    process_extension_fields
        [("ex:items[5]".data, JValue.int 7), ("ex:items[2]".data, JValue.int 3)] =
      some [("extensions".data, JValue.obj []),
            ("jnrrd_ext_ex".data,
             JValue.obj [("items".data,
               JValue.arr [JValue.null, JValue.null, JValue.int 3,
                           JValue.null, JValue.null, JValue.int 7])])] ∧
    [JValue.null, JValue.null, JValue.int 3,
     JValue.null, JValue.null, JValue.int 7].length = 6 := by
  exact ⟨rfl, rfl⟩

/-- C4 (corrected), counterexample.  The claim says parsing fails with
`PathSyntaxError` for an empty path, for a bracket not followed by digits
and `]`, and for a leading bracket.  In fact no `PathSyntaxError` exists
anywhere in the repository and `parse_path` raises on none of these inputs:
it returns the empty segment list for the empty path, and keeps the
malformed bracket text inside ordinary field segments otherwise. -/
theorem c4_parse_path_never_raises :
    parse_path [] = [] ∧
    parse_path ("a[".data) = [Seg.fld ("a[".data)] ∧
    parse_path ("a[x]".data) = [Seg.fld ("a[x]".data)] ∧
    parse_path ("[0].x".data) = [Seg.fld ("[0]".data), Seg.fld ("x".data)] :=
  ⟨rfl, rfl, rfl, rfl⟩

/-- C4 (corrected), amended claim: `parse_path` is total and never raises —
the empty path yields `[]`, `a[` yields the single field segment `a[`,
`a[x]` the single field segment `a[x]`, and `[0].x` the field segments
`[0]` and `x`.  On the reader side the regex tokenizer yields no components
for the empty path, which makes `_set_nested_value` fail (`components[-1]`
raises `IndexError`); the other three inputs do not raise there either. -/
theorem c4_amended_no_path_syntax_error :
    (parse_path [] = [] ∧
     parse_path ("a[".data) = [Seg.fld ("a[".data)] ∧
     parse_path ("a[x]".data) = [Seg.fld ("a[x]".data)] ∧
     parse_path ("[0].x".data) = [Seg.fld ("[0]".data), Seg.fld ("x".data)]) ∧
    tokenizePath [] = [] ∧
    set_nested_value [] [] (JValue.int 1) = none ∧
    set_nested_value [] ("a[".data) (JValue.int 1) = some [("a".data, JValue.int 1)] ∧
    set_nested_value [] ("a[x]".data) (JValue.int 1) =
      some [("a".data, JValue.obj [("x".data, JValue.int 1)])] ∧
    set_nested_value [] ("[0].x".data) (JValue.int 1) = some [] :=
  ⟨⟨rfl, rfl, rfl, rfl⟩, rfl, rfl, rfl, rfl, rfl⟩

/-- C10 (corrected), counterexample.  The claim says the reader's regex
tokenization and the spec module's `parse_path` agree on every path, in
particular on `matrix[1][2]`.  They disagree on that very path: the regex
`(\w+)\[(\d+)\]` of `parse_path` requires a word before each bracket, so the
second bracket group is not matched and comes back as the field `[2]`. -/
theorem c10_tokenizers_disagree :
    tokenizePath ("matrix[1][2]".data) =
      [Seg.fld ("matrix".data), Seg.idx 1, Seg.idx 2] ∧
    parse_path ("matrix[1][2]".data) =
      [Seg.fld ("matrix".data), Seg.idx 1, Seg.fld ("[2]".data)] ∧
    tokenizePath ("matrix[1][2]".data) ≠ parse_path ("matrix[1][2]".data) :=
  ⟨rfl, rfl, by decide⟩

/-- C2 (corrected), counterexample.  The claim includes records whose value
is an object.  For the single record `ns:a = {"x": 1}`, flattening the
unflattened tree does not return the record: the flattener expands the
object value into one record per leaf, yielding the different key
`ns:a.x`. -/
theorem c2_object_value_not_roundtripped :
    unflattenThenFlatten [("ns:a".data, JValue.obj [("x".data, JValue.int 1)])] =
      some [("ns:a.x".data, JValue.int 1)] ∧
    [("ns:a.x".data, JValue.int 1)].map Prod.fst = [("ns:a.x".data)] ∧
    ("ns:a.x".data) ≠ ("ns:a".data) :=
  ⟨rfl, rfl, by decide⟩

/-- C3 (corrected), counterexample.  The claim says every decoded stream
strictly longer than `Π sizes × width` is truncated and decoded
successfully for the gzip family as well.  For a gzip payload whose
decompression yields 5 bytes where 4 are expected (width 1, sizes `[4]`),
`_read_gzip_data` does not truncate: `reshape` fails and the read raises. -/
theorem c3_gzip_slack_not_truncated :
    read_compressed_data (fun _ => some [1, 2, 3, 4, 5]) [] 0 1 [4] = none ∧
    (5 : Nat) > listProd [4] * 1 :=
  ⟨rfl, by decide⟩

theorem chunksOf_length_mul :
    ∀ (n w : Nat), 0 < w → ∀ bs : List Nat, bs.length = n * w →
      (chunksOf w bs).length = n := by
  intro n
  induction n with
  | zero =>
    intro w hw bs hlen
    have : bs = [] := List.length_eq_zero.mp (by omega)
    subst this
    simp [chunksOf_nil]
  | succ n ih =>
    intro w hw bs hlen
    have hne : bs ≠ [] := by
      intro h; subst h; simp at hlen; omega
    rw [chunksOf_cons w hw bs hne]
    have hdrop : (bs.drop w).length = n * w := by
      simp only [List.length_drop]
      have : (n + 1) * w = n * w + w := by ring
      omega
    simp only [List.length_cons, ih w hw (bs.drop w) hdrop]

/-- C3 (corrected), amended claim.  Trailing slack handling on read:
`raw` ignores it for every size list (exactly `Π sizes × width` bytes are
read, later bytes are never consulted); `hex` ignores it whenever `sizes`
is nonempty and the decoded byte count is a multiple of the element width
(the decoded elements are truncated to the first `Π sizes`); `ascii`
ignores it whenever `sizes` is nonempty (the parsed tokens are truncated to
the first `Π sizes`).  The four whole-stream compressed encodings (gzip,
bzip2, zstd, lz4 — all sharing the shape of `_read_gzip_data` up to the
decompression primitive) have no truncation step: with nonempty `sizes` a
decompressed stream strictly longer than `Π sizes × width` bytes makes the
read fail (`np.frombuffer` or `reshape` raises), while with `sizes = []`
the `if sizes:` guard skips the reshape and the *whole* stream — slack
included — is returned, provided its byte count is a positive multiple of
the width (fewer bytes than one element still trip the length check, and a
non-multiple still fails `np.frombuffer`). -/
theorem c3_amended_slack_behavior :
    (∀ (file : List Nat) (pos itemsize : Nat) (sizes : List Nat),
        0 < itemsize →
        listProd sizes * itemsize ≤ (file.drop pos).length →
        read_raw_data file pos itemsize sizes =
          some ⟨if sizes = [] then [listProd sizes] else sizes,
                chunksOf itemsize
                  ((file.drop pos).take (listProd sizes * itemsize))⟩) ∧
    (∀ (file : List Nat) (pos itemsize : Nat) (sizes : List Nat) (bin : List Nat),
        0 < itemsize → sizes ≠ [] →
        bytesFromHex ((file.drop pos).filter isAlnumByte) = some bin →
        bin.length % itemsize = 0 →
        listProd sizes * itemsize ≤ bin.length →
        read_hex_data file pos itemsize sizes =
          some ⟨sizes, (chunksOf itemsize bin).take (listProd sizes)⟩) ∧
    (∀ (tokToElem : List Nat → Option (List Nat)) (file : List Nat) (pos : Nat)
        (sizes : List Nat) (elems : List (List Nat)),
        sizes ≠ [] →
        (splitWords (file.drop pos)).mapM tokToElem = some elems →
        listProd sizes ≤ elems.length →
        read_ascii_data tokToElem file pos sizes =
          some ⟨sizes, elems.take (listProd sizes)⟩) ∧
    (∀ (decompress : List Nat → Option (List Nat)) (file : List Nat)
        (pos itemsize : Nat) (sizes : List Nat) (d : List Nat),
        0 < itemsize → sizes ≠ [] →
        decompress (file.drop pos) = some d →
        listProd sizes * itemsize < d.length →
        read_compressed_data decompress file pos itemsize sizes = none) ∧
    (∀ (decompress : List Nat → Option (List Nat)) (file : List Nat)
        (pos itemsize : Nat) (d : List Nat),
        0 < itemsize →
        decompress (file.drop pos) = some d →
        itemsize ≤ d.length → d.length % itemsize = 0 →
        read_compressed_data decompress file pos itemsize [] =
          some ⟨[(chunksOf itemsize d).length], chunksOf itemsize d⟩) := by
  refine ⟨?_, ?_, ?_, ?_, ?_⟩
  · intro file pos itemsize sizes hw hlen
    have hbuf : ((file.drop pos).take (listProd sizes * itemsize)).length =
        listProd sizes * itemsize := by
      rw [List.length_take]
      omega
    have hfb : np_frombuffer ((file.drop pos).take (listProd sizes * itemsize))
        itemsize = some (chunksOf itemsize
          ((file.drop pos).take (listProd sizes * itemsize))) := by
      unfold np_frombuffer
      rw [if_pos ⟨by omega, by rw [hbuf]; exact Nat.mul_mod_left _ _⟩]
    have hclen := chunksOf_length_mul (listProd sizes) itemsize hw _ hbuf
    unfold read_raw_data
    rw [if_neg (by omega), hfb, Option.some_bind]
    by_cases hs : sizes = []
    · subst hs
      rw [if_pos rfl, hclen]
      simp
    · rw [if_neg hs]
      unfold np_reshape
      rw [if_pos hclen]
      simp [hs]
  · intro file pos itemsize sizes bin hw hs hhex hmod hge
    unfold read_hex_data
    rw [hhex, Option.some_bind]
    have hfb : np_frombuffer bin itemsize = some (chunksOf itemsize bin) := by
      unfold np_frombuffer
      rw [if_pos ⟨by omega, hmod⟩]
    rw [hfb, Option.some_bind]
    obtain ⟨n, hn⟩ := Nat.dvd_of_mod_eq_zero hmod
    have hclen : (chunksOf itemsize bin).length = n :=
      chunksOf_length_mul n itemsize hw bin (by rw [hn, Nat.mul_comm])
    have hple : listProd sizes ≤ n := by
      have hmm : listProd sizes * itemsize ≤ n * itemsize := by
        rw [Nat.mul_comm n itemsize, ← hn]
        exact hge
      exact Nat.le_of_mul_le_mul_right hmm hw
    rw [if_neg (by rw [hclen]; omega), if_neg hs]
    unfold np_reshape
    rw [if_pos (by rw [List.length_take, hclen]; omega)]
  · intro tokToElem file pos sizes elems hs hmap hge
    unfold read_ascii_data
    rw [hmap, Option.some_bind, if_neg (by omega), if_neg hs]
    unfold np_reshape
    rw [if_pos (by rw [List.length_take]; omega)]
  · intro decompress file pos itemsize sizes d hw hs hdec hlen
    unfold read_compressed_data
    rw [hdec, Option.some_bind, if_neg (by omega)]
    by_cases hmod : d.length % itemsize = 0
    · have hfb : np_frombuffer d itemsize = some (chunksOf itemsize d) := by
        unfold np_frombuffer
        rw [if_pos ⟨by omega, hmod⟩]
      rw [hfb, Option.some_bind, if_neg hs]
      obtain ⟨n, hn⟩ := Nat.dvd_of_mod_eq_zero hmod
      have hchunks : (chunksOf itemsize d).length = n :=
        chunksOf_length_mul n itemsize hw d (by rw [hn, Nat.mul_comm])
      unfold np_reshape
      rw [if_neg]
      rw [hchunks]
      intro heq
      subst heq
      rw [Nat.mul_comm] at hn
      omega
    · have hfb : np_frombuffer d itemsize = none := by
        unfold np_frombuffer
        rw [if_neg (by intro h; exact hmod h.2)]
      rw [hfb]
      rfl
  · intro decompress file pos itemsize d hw hdec hge hmod
    unfold read_compressed_data
    rw [hdec, Option.some_bind,
      if_neg (by simp only [show listProd [] = 1 from rfl]; omega)]
    have hfb : np_frombuffer d itemsize = some (chunksOf itemsize d) := by
      unfold np_frombuffer
      rw [if_pos ⟨by omega, hmod⟩]
    rw [hfb, Option.some_bind, if_pos rfl]

/-- C3 (corrected), witness: every quantified part of the amended claim at
a concrete input — raw slack ignored, hex and ascii truncated, the
compressed family failing on slack with nonempty sizes and passing the
whole stream through with empty sizes. -/
theorem c3_amended_slack_behavior_witness :
    read_raw_data [9, 8, 7, 6, 5] 1 2 [2] = some ⟨[2], [[8, 7], [6, 5]]⟩ ∧
    read_hex_data (bytesOfAscii ("0102030405\n".data)) 0 1 [4] =
      some ⟨[4], [[1], [2], [3], [4]]⟩ ∧
    read_ascii_data (fun w => some w) (bytesOfAscii ("1 2 3".data)) 0 [2] =
      some ⟨[2], [[49], [50]]⟩ ∧
    read_compressed_data (fun _ => some [1, 2, 3]) [] 0 1 [2] = none ∧
    read_compressed_data (fun _ => some [1, 2, 3]) [] 0 1 [] =
      some ⟨[3], [[1], [2], [3]]⟩ := by
  refine ⟨?_, ?_, ?_, ?_, ?_⟩
  · have h := c3_amended_slack_behavior.1 [9, 8, 7, 6, 5] 1 2 [2]
      (by decide) (by decide)
    exact h.trans (by decide)
  · have h := c3_amended_slack_behavior.2.1 (bytesOfAscii ("0102030405\n".data))
      0 1 [4] [1, 2, 3, 4, 5] (by decide) (by decide) (by decide) (by decide)
      (by decide)
    exact h.trans (by decide)
  · have h := c3_amended_slack_behavior.2.2.1 (fun w => some w)
      (bytesOfAscii ("1 2 3".data)) 0 [2] [[49], [50], [51]]
      (by decide) rfl (by decide)
    exact h.trans (by decide)
  · exact c3_amended_slack_behavior.2.2.2.1 (fun _ => some [1, 2, 3]) [] 0 1 [2]
      [1, 2, 3] (by decide) (by decide) rfl (by decide)
  · have h := c3_amended_slack_behavior.2.2.2.2 (fun _ => some [1, 2, 3]) [] 0 1
      [1, 2, 3] (by decide) rfl (by decide) (by decide)
    exact h.trans (by decide)

/-- C7 (confirmed).  For every binary encoding, a payload holding fewer
than `Π sizes × width` bytes makes the reader raise rather than return a
truncated array: `raw` when the file holds fewer bytes past the offset
than expected, the gzip/bzip2/zstd/lz4 family when the decompressed
stream is shorter than expected, and `hex` when the decoded byte string is
shorter than expected (the raised error is the length check's `ValueError`,
or `np.frombuffer`'s when the short byte count is not even a multiple of
the element width — in every case no array is returned). -/
theorem c7_short_payload_always_raises :
    (∀ (file : List Nat) (pos itemsize : Nat) (sizes : List Nat),
        (file.drop pos).length < listProd sizes * itemsize →
        read_raw_data file pos itemsize sizes = none) ∧
    (∀ (decompress : List Nat → Option (List Nat)) (file : List Nat)
        (pos itemsize : Nat) (sizes : List Nat) (d : List Nat),
        decompress (file.drop pos) = some d →
        d.length < listProd sizes * itemsize →
        read_compressed_data decompress file pos itemsize sizes = none) ∧
    (∀ (file : List Nat) (pos itemsize : Nat) (sizes : List Nat) (bin : List Nat),
        0 < itemsize →
        bytesFromHex ((file.drop pos).filter isAlnumByte) = some bin →
        bin.length < listProd sizes * itemsize →
        read_hex_data file pos itemsize sizes = none) := by
  refine ⟨?_, ?_, ?_⟩
  · intro file pos itemsize sizes hlen
    unfold read_raw_data
    rw [if_pos]
    rw [List.length_take]
    omega
  · intro decompress file pos itemsize sizes d hdec hlen
    unfold read_compressed_data
    rw [hdec, Option.some_bind, if_pos hlen]
  · intro file pos itemsize sizes bin hw hhex hlen
    unfold read_hex_data
    rw [hhex, Option.some_bind]
    by_cases hmod : bin.length % itemsize = 0
    · have hfb : np_frombuffer bin itemsize = some (chunksOf itemsize bin) := by
        unfold np_frombuffer
        rw [if_pos ⟨by omega, hmod⟩]
      rw [hfb, Option.some_bind, if_pos]
      obtain ⟨n, hn⟩ := Nat.dvd_of_mod_eq_zero hmod
      have hchunks : (chunksOf itemsize bin).length = n :=
        chunksOf_length_mul n itemsize hw bin (by rw [hn, Nat.mul_comm])
      rw [hchunks]
      have : n * itemsize < listProd sizes * itemsize := by
        rw [Nat.mul_comm n itemsize, ← hn]
        exact hlen
      exact Nat.lt_of_mul_lt_mul_right this
    · have hfb : np_frombuffer bin itemsize = none := by
        unfold np_frombuffer
        rw [if_neg (by intro h; exact hmod h.2)]
      rw [hfb]
      rfl

/-- C7 (confirmed), witness. -/
theorem c7_short_payload_always_raises_witness :
    read_raw_data [1, 2, 3] 0 2 [2] = none ∧
    read_compressed_data (fun _ => some [1, 2, 3]) [] 0 2 [2] = none ∧
    read_hex_data (bytesOfAscii ("0102".data)) 0 1 [4] = none := by
  refine ⟨c7_short_payload_always_raises.1 [1, 2, 3] 0 2 [2] (by decide),
          c7_short_payload_always_raises.2.1 (fun _ => some [1, 2, 3]) [] 0 2 [2]
            [1, 2, 3] rfl (by decide),
          c7_short_payload_always_raises.2.2 (bytesOfAscii ("0102".data)) 0 1 [4]
            [1, 2] (by decide) (by decide) (by decide)⟩

/-- Read one step into a tree value (dict key or list index). -/
def getSeg : JValue → Seg → Option JValue
  | JValue.obj kvs, Seg.fld s => assocLookup kvs s
  | JValue.arr xs, Seg.idx n => xs.get? n
  | _, _ => none

/-- Read the node addressed by a whole path. -/
def getPath : JValue → List Seg → Option JValue
  | v, [] => some v
  | v, s :: q => (getSeg v s).bind (fun w => getPath w q)

theorem assocLookup_dictSet_ne (kvs : List (List Char × JValue)) (k k' : List Char)
    (v : JValue) (h : k' ≠ k) : assocLookup (dictSet kvs k v) k' = assocLookup kvs k' := by
  induction kvs with
  | nil =>
    simp only [dictSet, assocLookup]
    rw [if_neg (fun hh => h hh.symm)]
  | cons kv tl ih =>
    obtain ⟨k0, v0⟩ := kv
    by_cases hk : k0 = k
    · subst hk
      simp only [dictSet, if_pos rfl, assocLookup]
      rw [if_neg (fun hh => h hh.symm), if_neg (fun hh => h hh.symm)]
    · simp only [dictSet, if_neg hk, assocLookup]
      by_cases hk' : k0 = k'
      · rw [if_pos hk', if_pos hk']
      · rw [if_neg hk', if_neg hk', ih]

theorem assocLookup_dictSet_eq (kvs : List (List Char × JValue)) (k : List Char)
    (v : JValue) : assocLookup (dictSet kvs k v) k = some v := by
  induction kvs with
  | nil => simp [dictSet, assocLookup]
  | cons kv tl ih =>
    obtain ⟨k0, v0⟩ := kv
    by_cases hk : k0 = k
    · subst hk; simp [dictSet, assocLookup]
    · simp only [dictSet, if_neg hk, assocLookup, hk]
      exact ih

theorem padLen_get?_lt (xs : List JValue) (n m : Nat) (h : m < xs.length) :
    (padLen xs n).get? m = xs.get? m := by
  unfold padLen
  exact List.get?_append h

theorem padLen_length (xs : List JValue) (n : Nat) :
    (padLen xs n).length = max (n + 1) xs.length := by
  unfold padLen
  simp only [List.length_append, List.length_replicate]
  omega

/-- The general half of C5: a successful merge at `comps` leaves every node
addressed by a path incomparable with `comps` (neither a prefix of the
other) exactly as it was. -/
theorem setNested_preserves_incomparable :
    ∀ (comps : List Seg) (v t t' : JValue) (q : List Seg) (w : JValue),
      setNestedAux v comps t = some t' →
      ¬ comps <+: q → ¬ q <+: comps →
      getPath t q = some w → getPath t' q = some w := by
  intro comps
  induction comps with
  | nil =>
    intro v t t' q w h
    simp [setNestedAux] at h
  | cons c cs ih =>
    intro v t t' q w hset hpre1 hpre2 hget
    cases q with
    | nil => exact absurd List.nil_prefix hpre2
    | cons s q' =>
      cases cs with
      | nil =>
        cases c with
        | idx n =>
          cases t with
          | arr xs =>
            simp only [setNestedAux, Option.some.injEq] at hset
            subst hset
            cases s with
            | fld s1 => simp [getPath, getSeg] at hget
            | idx m =>
              have hmn : m ≠ n := by
                intro heq
                subst heq
                exact hpre1 (List.cons_prefix_cons.mpr ⟨rfl, List.nil_prefix⟩)
              simp only [getPath, getSeg] at hget ⊢
              cases hx : xs.get? m with
              | none => rw [hx] at hget; exact absurd hget (by simp)
              | some u =>
                rw [hx] at hget
                have hm : m < xs.length := (List.get?_eq_some.mp hx).1
                rw [List.get?_set_ne _ _ (fun hh => hmn hh.symm),
                  padLen_get?_lt xs n m hm, hx]
                exact hget
          | null => simp only [setNestedAux, Option.some.injEq] at hset; subst hset; exact hget
          | bool b => simp only [setNestedAux, Option.some.injEq] at hset; subst hset; exact hget
          | int i => simp only [setNestedAux, Option.some.injEq] at hset; subst hset; exact hget
          | str st => simp only [setNestedAux, Option.some.injEq] at hset; subst hset; exact hget
          | obj kvs => simp only [setNestedAux, Option.some.injEq] at hset; subst hset; exact hget
        | fld s0 =>
          cases t with
          | obj kvs =>
            simp only [setNestedAux, Option.some.injEq] at hset
            subst hset
            cases s with
            | idx m => simp [getPath, getSeg] at hget
            | fld s1 =>
              have hs : s1 ≠ s0 := by
                intro heq
                subst heq
                exact hpre1 (List.cons_prefix_cons.mpr ⟨rfl, List.nil_prefix⟩)
              simp only [getPath, getSeg] at hget ⊢
              rw [assocLookup_dictSet_ne kvs s0 s1 v hs]
              exact hget
          | null => simp [setNestedAux] at hset
          | bool b => simp [setNestedAux] at hset
          | int i => simp [setNestedAux] at hset
          | str st => simp [setNestedAux] at hset
          | arr xs => simp [setNestedAux] at hset
      | cons c2 rest =>
        cases c with
        | idx n =>
          cases t with
          | arr xs =>
            simp only [setNestedAux] at hset
            cases hrec : setNestedAux v (c2 :: rest)
                (if ((padLen xs n).getD n JValue.null).isNull then newContainer c2
                 else (padLen xs n).getD n JValue.null) with
            | none => rw [hrec] at hset; exact absurd hset (by simp)
            | some r =>
              rw [hrec] at hset
              simp only [Option.some.injEq] at hset
              subst hset
              cases s with
              | fld s1 => simp [getPath, getSeg] at hget
              | idx m =>
                simp only [getPath, getSeg] at hget ⊢
                cases hx : xs.get? m with
                | none => rw [hx] at hget; exact absurd hget (by simp)
                | some u =>
                  rw [hx] at hget
                  have hm : m < xs.length := (List.get?_eq_some.mp hx).1
                  by_cases hmn : m = n
                  · subst hmn
                    have hgetd : (padLen xs m).getD m JValue.null = u := by
                      rw [List.getD_eq_getD_get?, padLen_get?_lt xs m m hm, hx]
                      rfl
                    have hpre1' : ¬ (c2 :: rest) <+: q' := by
                      intro hp
                      exact hpre1 (List.cons_prefix_cons.mpr ⟨rfl, hp⟩)
                    have hpre2' : ¬ q' <+: (c2 :: rest) := by
                      intro hp
                      exact hpre2 (List.cons_prefix_cons.mpr ⟨rfl, hp⟩)
                    by_cases hnull : u.isNull
                    · have : u = JValue.null := by
                        cases u <;> simp [JValue.isNull] at hnull ⊢
                      subst this
                      cases q' with
                      | nil =>
                        exact absurd (List.cons_prefix_cons.mpr
                          ⟨rfl, List.nil_prefix⟩) hpre2
                      | cons s2 q'' =>
                        rw [Option.some_bind] at hget
                        have hnone : getPath JValue.null (s2 :: q'') = none := by
                          cases s2 <;> rfl
                        rw [hnone] at hget
                        exact absurd hget (by simp)
                    · have hchild :
                          (if ((padLen xs m).getD m JValue.null).isNull then
                             newContainer c2
                           else (padLen xs m).getD m JValue.null) = u := by
                        rw [hgetd, if_neg hnull]
                      rw [hchild] at hrec
                      have hr := ih v u r q' w hrec hpre1' hpre2' hget
                      have hlen : m < (padLen xs m).length := by
                        rw [padLen_length]; omega
                      rw [List.get?_set_eq_of_lt _ hlen, Option.some_bind]
                      exact hr
                  · rw [List.get?_set_ne _ _ (fun hh => hmn hh.symm),
                      padLen_get?_lt xs n m hm, hx]
                    exact hget
          | null => simp only [setNestedAux, Option.some.injEq] at hset; subst hset; exact hget
          | bool b => simp only [setNestedAux, Option.some.injEq] at hset; subst hset; exact hget
          | int i => simp only [setNestedAux, Option.some.injEq] at hset; subst hset; exact hget
          | str st => simp only [setNestedAux, Option.some.injEq] at hset; subst hset; exact hget
          | obj kvs => simp only [setNestedAux, Option.some.injEq] at hset; subst hset; exact hget
        | fld s0 =>
          cases t with
          | obj kvs =>
            simp only [setNestedAux] at hset
            cases hl : assocLookup kvs s0 with
            | none =>
              simp only [hl] at hset
              cases hrec : setNestedAux v (c2 :: rest) (newContainer c2) with
              | none => rw [hrec] at hset; exact absurd hset (by simp)
              | some r =>
                rw [hrec] at hset
                simp only [Option.some.injEq] at hset
                subst hset
                cases s with
                | idx m => simp [getPath, getSeg] at hget
                | fld s1 =>
                  simp only [getPath, getSeg] at hget ⊢
                  by_cases hs : s1 = s0
                  · subst hs
                    rw [hl] at hget
                    exact absurd hget (by simp)
                  · rw [assocLookup_dictSet_ne kvs s0 s1 r hs]
                    exact hget
            | some u =>
              simp only [hl] at hset
              cases hrec : setNestedAux v (c2 :: rest) u with
              | none => rw [hrec] at hset; exact absurd hset (by simp)
              | some r =>
                rw [hrec] at hset
                simp only [Option.some.injEq] at hset
                subst hset
                cases s with
                | idx m => simp [getPath, getSeg] at hget
                | fld s1 =>
                  simp only [getPath, getSeg] at hget ⊢
                  by_cases hs : s1 = s0
                  · subst hs
                    rw [hl] at hget
                    rw [Option.some_bind] at hget
                    have hpre1' : ¬ (c2 :: rest) <+: q' := by
                      intro hp
                      exact hpre1 (List.cons_prefix_cons.mpr ⟨rfl, hp⟩)
                    have hpre2' : ¬ q' <+: (c2 :: rest) := by
                      intro hp
                      exact hpre2 (List.cons_prefix_cons.mpr ⟨rfl, hp⟩)
                    have hr := ih v u r q' w hrec hpre1' hpre2' hget
                    rw [assocLookup_dictSet_eq kvs s1 r, Option.some_bind]
                    exact hr
                  · rw [assocLookup_dictSet_ne kvs s0 s1 r hs]
                    exact hget
          | null => simp [setNestedAux] at hset
          | bool b => simp [setNestedAux] at hset
          | int i => simp [setNestedAux] at hset
          | str st => simp [setNestedAux] at hset
          | arr xs => simp [setNestedAux] at hset

/-- C5 (confirmed).  Merging a value at a path never deletes sibling keys:
for every successful merge, every node addressed by a path incomparable
with the merged path (so in particular every pre-existing sibling key at
any level outside the addressed path) still holds exactly its old value.
And concretely, after `vendor:config.options = {"timeout":60,"retries":2}`
followed by `vendor:config.options.ssl = {"enabled":true}`, the `options`
object is `{"timeout":60,"retries":2,"ssl":{"enabled":true}}`. -/
theorem c5_merge_preserves_siblings :
    (∀ (comps : List Seg) (v t t' : JValue) (q : List Seg) (w : JValue),
        setNestedAux v comps t = some t' →
        ¬ comps <+: q → ¬ q <+: comps →
        getPath t q = some w → getPath t' q = some w) ∧
    process_extension_fields
        [("vendor:config.options".data,
          JValue.obj [("timeout".data, JValue.int 60),
                      ("retries".data, JValue.int 2)]),
         ("vendor:config.options.ssl".data,
          JValue.obj [("enabled".data, JValue.bool true)])] =
      some [("extensions".data, JValue.obj []),
            ("jnrrd_ext_vendor".data,
             JValue.obj [("config".data,
               JValue.obj [("options".data,
                 JValue.obj [("timeout".data, JValue.int 60),
                             ("retries".data, JValue.int 2),
                             ("ssl".data,
                              JValue.obj [("enabled".data, JValue.bool true)])])])])] :=
  ⟨setNested_preserves_incomparable, rfl⟩

/-- C5 (confirmed), witness: setting `b` next to an existing `a` leaves
`a` readable with its old value. -/
theorem c5_merge_preserves_siblings_witness :
    getPath (JValue.obj [("a".data, JValue.int 5), ("b".data, JValue.int 7)])
      [Seg.fld ("a".data)] = some (JValue.int 5) :=
  c5_merge_preserves_siblings.1 [Seg.fld ("b".data)] (JValue.int 7)
    (JValue.obj [("a".data, JValue.int 5)]) _ [Seg.fld ("a".data)] (JValue.int 5)
    rfl (by decide) (by decide) rfl

theorem foldr_lineStep_prepend :
    ∀ (body : List Nat), 10 ∉ body → ∀ (g : List Nat) (gs : List (List Nat)),
      List.foldr lineStep (g :: gs) body = (body ++ g) :: gs := by
  intro body
  induction body with
  | nil => intro _ g gs; rfl
  | cons b tl ih =>
    intro hno g gs
    have hb : b ≠ 10 := fun h => hno (by rw [h]; exact List.mem_cons_self _ _)
    have htl : 10 ∉ tl := fun h => hno (List.mem_cons_of_mem _ h)
    simp only [List.foldr_cons, ih htl g gs, lineStep, if_neg hb]
    rfl

/-- Splitting off one full (newline-terminated, no interior newline) line. -/
theorem lineSplit_cons_line (body bs : List Nat) (hno : 10 ∉ body) :
    lineSplit ((body ++ [10]) ++ bs) = (body ++ [10]) :: lineSplit bs := by
  unfold lineSplit
  rw [List.append_assoc, List.foldr_append, List.singleton_append,
    List.foldr_cons]
  have hstep : lineStep 10 (List.foldr lineStep [] bs) =
      [10] :: List.foldr lineStep [] bs := by
    simp [lineStep]
  rw [hstep, foldr_lineStep_prepend body hno [10] (List.foldr lineStep [] bs)]

/-- The generalized header-scanning lemma behind C8: after any number of
decodable single-object lines, a nonempty line that fails to decode stops
the scan, keeping all records decoded so far and recording the failing
line's start offset. -/
theorem readHeaderLines_stops_at_bad_line :
    ∀ (jl : List Nat → Option JValue)
      (goodLines : List (List Nat × List (List Char × JValue)))
      (rest : List Nat) (hdr : List (List Char × JValue)) (pos : Nat),
      (∀ p ∈ goodLines,
        (∃ body, p.1 = body ++ [10] ∧ 10 ∉ body) ∧
        pythonStrip p.1 ≠ [] ∧
        jl (pythonStrip p.1) = some (JValue.obj p.2)) →
      (∃ brest, lineSplit rest ≠ [] ∧
        pythonStrip ((lineSplit rest).headI) ≠ [] ∧
        jl (pythonStrip ((lineSplit rest).headI)) = none ∧
        lineSplit rest = (lineSplit rest).headI :: brest) →
      readHeaderLines jl (lineSplit ((goodLines.map Prod.fst).join ++ rest)) hdr pos =
        some (goodLines.foldl (fun h p => dictUpdate h p.2) hdr,
              pos + ((goodLines.map Prod.fst).join).length) := by
  intro jl goodLines
  induction goodLines with
  | nil =>
    intro rest hdr pos _ hbad
    obtain ⟨brest, hne, hstrip, hjl, hsplit⟩ := hbad
    show readHeaderLines jl (lineSplit rest) hdr pos = some (hdr, pos + 0)
    rw [hsplit]
    unfold readHeaderLines
    rw [if_neg hstrip]
    simp only [hjl, Nat.add_zero]
  | cons p tl ih =>
    intro rest hdr pos hgood hbad
    obtain ⟨⟨body, hb, hno⟩, hstrip, hjl⟩ := hgood p (List.mem_cons_self _ _)
    obtain ⟨l, rec⟩ := p
    simp only at hb hstrip hjl
    subst hb
    have hjoin : ((((body ++ [10]), rec) :: tl).map Prod.fst).join =
        (body ++ [10]) ++ ((tl.map Prod.fst).join) := by
      simp [List.join]
    rw [hjoin, List.append_assoc,
      lineSplit_cons_line body ((tl.map Prod.fst).join ++ rest) hno]
    unfold readHeaderLines
    rw [if_neg hstrip]
    simp only [hjl]
    have ihr := ih rest (dictUpdate hdr rec) (pos + (body ++ [10]).length)
      (fun q hq => hgood q (List.mem_cons_of_mem _ hq)) hbad
    rw [ihr]
    simp only [List.foldl_cons, List.length_append]
    congr 2
    omega

/-- C8 (confirmed).  When scanning hits a nonempty line that does not
decode as JSON, the header stops there: the recorded data start offset is
the byte offset of that line's start (the total length of the preceding
decoded lines), and every record decoded before it is kept (and returned
through `_process_extension_fields` in the final header). -/
theorem c8_undecodable_line_sets_data_start :
    ∀ (jl : List Nat → Option JValue)
      (goodLines : List (List Nat × List (List Char × JValue)))
      (rest : List Nat),
      (∀ p ∈ goodLines,
        (∃ body, p.1 = body ++ [10] ∧ 10 ∉ body) ∧
        pythonStrip p.1 ≠ [] ∧
        jl (pythonStrip p.1) = some (JValue.obj p.2)) →
      (∃ brest, lineSplit rest ≠ [] ∧
        pythonStrip ((lineSplit rest).headI) ≠ [] ∧
        jl (pythonStrip ((lineSplit rest).headI)) = none ∧
        lineSplit rest = (lineSplit rest).headI :: brest) →
      readHeaderLines jl (lineSplit ((goodLines.map Prod.fst).join ++ rest)) [] 0 =
        some (goodLines.foldl (fun h p => dictUpdate h p.2) [],
              ((goodLines.map Prod.fst).join).length) ∧
      read_header jl ((goodLines.map Prod.fst).join ++ rest) =
        (process_extension_fields
            (goodLines.foldl (fun h p => dictUpdate h p.2) [])).map
          (fun ph => dictSet ph ("__data_start_pos".data)
            (JValue.int (((goodLines.map Prod.fst).join).length))) := by
  intro jl goodLines rest hgood hbad
  have h := readHeaderLines_stops_at_bad_line jl goodLines rest [] 0 hgood hbad
  rw [Nat.zero_add] at h
  refine ⟨h, ?_⟩
  unfold read_header
  rw [h]
  show (match process_extension_fields
          (goodLines.foldl (fun h p => dictUpdate h p.2) []) with
        | none => none
        | some ph => some (dictSet ph ("__data_start_pos".data)
            (JValue.int (((goodLines.map Prod.fst).join).length)))) = _
  cases process_extension_fields
      (goodLines.foldl (fun h p => dictUpdate h p.2) []) with
  | none => rfl
  | some ph => rfl

/-- C8 (confirmed), witness: two decodable records, then a binary blob. -/
theorem c8_undecodable_line_sets_data_start_witness :
    readHeaderLines jsonFix
        (lineSplit (bytesOfAscii ("\x7b\"a\":1\x7d\n\x7b\"b\":2\x7d\n###BINARY".data)))
        [] 0 =
      some ([("a".data, JValue.int 1), ("b".data, JValue.int 2)], 16) ∧
    read_header jsonFix
        (bytesOfAscii ("\x7b\"a\":1\x7d\n\x7b\"b\":2\x7d\n###BINARY".data)) =
      some [("a".data, JValue.int 1), ("b".data, JValue.int 2),
            ("__data_start_pos".data, JValue.int 16)] := by
  have h := c8_undecodable_line_sets_data_start jsonFix
    [(bytesOfAscii ("\x7b\"a\":1\x7d\n".data), [("a".data, JValue.int 1)]),
     (bytesOfAscii ("\x7b\"b\":2\x7d\n".data), [("b".data, JValue.int 2)])]
    (bytesOfAscii ("###BINARY".data))
    (by
      intro p hp
      rcases List.mem_cons.mp hp with h1 | hp2
      · subst h1
        exact ⟨⟨bytesOfAscii ("\x7b\"a\":1\x7d".data), rfl, by decide⟩,
               by decide, rfl⟩
      rcases List.mem_cons.mp hp2 with h1 | hp3
      · subst h1
        exact ⟨⟨bytesOfAscii ("\x7b\"b\":2\x7d".data), rfl, by decide⟩,
               by decide, rfl⟩
      · exact absurd hp3 (List.not_mem_nil p))
    ⟨[], by decide, by decide, rfl, rfl⟩
  exact h

theorem readLine_fst_nil {bs : List Nat} (h : (readLine bs).1 = []) : bs = [] := by
  cases bs with
  | nil => rfl
  | cons b tl =>
    by_cases hb : b = 10
    · simp [readLine, hb] at h
    · simp [readLine, hb] at h

/-- `lineSplit` peels exactly one `readline` result at a time. -/
theorem lineSplit_readLine (bs : List Nat) :
    lineSplit bs =
      if (readLine bs).1 = [] then []
      else (readLine bs).1 :: lineSplit (readLine bs).2 := by
  induction bs with
  | nil => rfl
  | cons b tl ih =>
    by_cases hb : b = 10
    · subst hb
      simp [lineSplit, lineStep, readLine]
    · have hfst : (readLine (b :: tl)).1 = b :: (readLine tl).1 := by
        simp [readLine, hb]
      have hsnd : (readLine (b :: tl)).2 = (readLine tl).2 := by
        simp [readLine, hb]
      rw [hfst] at *
      have hcons : lineSplit (b :: tl) = lineStep b (lineSplit tl) := rfl
      rw [if_neg (by simp)]
      rw [hcons, ih, hsnd]
      by_cases hl : (readLine tl).1 = []
      · have htl : tl = [] := readLine_fst_nil hl
        subst htl
        simp [lineStep, hb, readLine, lineSplit]
      · rw [if_neg hl]
        simp [lineStep, hb]

theorem skipLines_nil : ∀ n, skipLines [] n = 0 := by
  intro n
  induction n with
  | zero => rfl
  | succ n ih => simp [skipLines, readLine, ih]

/-- Refinement of the `line_skip` loop: the offset after `readline`-ing `n`
times equals the total length of the first `n` lines of the file. -/
theorem skipLines_eq_take_sum :
    ∀ (n : Nat) (db : List Nat),
      skipLines db n = (((lineSplit db).take n).map List.length).sum := by
  intro n
  induction n with
  | zero => intro db; rfl
  | succ n ih =>
    intro db
    by_cases h : (readLine db).1 = []
    · have hdb : db = [] := readLine_fst_nil h
      subst hdb
      simp [skipLines_nil, lineSplit]
    · rw [lineSplit_readLine db, if_neg h]
      simp only [List.take_succ_cons, List.map_cons, List.sum_cons, skipLines]
      rw [ih]

/-- C9 (confirmed).  For every header declaring a `data_file` (with the
skips optional: absent or integer-valued), the reader resolves the payload
location as the data path itself when absolute, otherwise the data path
joined to the header file's directory; the payload offset is the total
byte length of the first `line_skip` lines of the detached file (no lines
are skipped when `line_skip` is absent), plus `byte_skip` (0 when absent) —
the line skip is applied first, the byte skip added afterwards. -/
theorem c9_detached_location_resolution :
    ∀ (fs : List Char → Option (List Nat)) (filename dp : List Char)
      (header : List (List Char × JValue)) (lso bso : Option Int) (db : List Nat),
      assocLookup header ("data_file".data) = some (JValue.str dp) →
      getIntOpt header ("line_skip".data) = some lso →
      getIntOpt header ("byte_skip".data) = some bso →
      getIntOpt header ("__data_start_pos".data) ≠ none →
      (∀ ls : Int, lso = some ls →
        fs (if pathIsAbs dp then dp else pathJoin (pathDirname filename) dp) =
          some db) →
      read_data_loc fs filename header =
        some (if pathIsAbs dp then dp else pathJoin (pathDirname filename) dp,
              (match lso with
               | none => (0 : Int)
               | some ls =>
                   ((((lineSplit db).take ls.toNat).map List.length).sum : Nat)) +
                bso.getD 0) := by
  intro fs filename dp header lso bso db hdf hls hbs hdsp hfs
  obtain ⟨b0, hb0⟩ := Option.ne_none_iff_exists'.mp hdsp
  unfold read_data_loc
  rw [hb0, Option.some_bind]
  unfold getIntOpt at hls
  cases hal : assocLookup header ("line_skip".data) with
  | none =>
    rw [hal] at hls
    have hlso : lso = none := (Option.some.inj hls).symm
    subst hlso
    simp only [hdf, hal, hbs, Option.some_bind]
  | some v =>
    rw [hal] at hls
    cases v with
    | int ls =>
      simp only at hls
      have hlso : lso = some ls := (Option.some.inj hls).symm
      subst hlso
      have hfs' := hfs ls rfl
      simp only [hdf, hal, hfs', hbs, Option.some_bind]
      rw [skipLines_eq_take_sum]
    | null => simp at hls
    | bool b => simp at hls
    | str s => simp at hls
    | arr xs => simp at hls
    | obj kvs => simp at hls

/-- C9 (confirmed), witness: a relative data file with two lines skipped
and then three bytes added, plus an absolute data file with neither skip
declared (kept verbatim, offset 0, no file access needed). -/
theorem c9_detached_location_resolution_witness :
    read_data_loc
        (fun n => if n = "dir/d.raw".data
                  then some (bytesOfAscii ("ab\ncd\nefg".data)) else none)
        ("dir/h.jnrrd".data)
        [("data_file".data, JValue.str ("d.raw".data)),
         ("line_skip".data, JValue.int 2),
         ("byte_skip".data, JValue.int 3)] =
      some ("dir/d.raw".data, 9) ∧
    read_data_loc (fun _ => none) ("/h.jnrrd".data)
        [("data_file".data, JValue.str ("/abs/d.raw".data))] =
      some ("/abs/d.raw".data, 0) := by
  constructor
  · have h := c9_detached_location_resolution
      (fun n => if n = "dir/d.raw".data
                then some (bytesOfAscii ("ab\ncd\nefg".data)) else none)
      ("dir/h.jnrrd".data) ("d.raw".data)
      [("data_file".data, JValue.str ("d.raw".data)),
       ("line_skip".data, JValue.int 2),
       ("byte_skip".data, JValue.int 3)]
      (some 2) (some 3) (bytesOfAscii ("ab\ncd\nefg".data))
      rfl rfl rfl (by decide) (fun _ _ => rfl)
    exact h.trans (by decide)
  · have h := c9_detached_location_resolution (fun _ => none)
      ("/h.jnrrd".data) ("/abs/d.raw".data)
      [("data_file".data, JValue.str ("/abs/d.raw".data))]
      none none []
      rfl rfl rfl (by decide) (fun ls hls => Option.noConfusion hls)
    exact h.trans (by decide)

/-- A path segment of the common single-bracket dotted grammar: a field
name optionally followed by one bracketed decimal index (digits kept as
written). -/
structure PSeg where
  name : List Char
  index : Option (List Char)

/-- Render a grammar segment as path text. -/
def renderPSeg (s : PSeg) : List Char :=
  s.name ++ (match s.index with | some ds => '[' :: ds ++ [']'] | none => [])

/-- Render a dotted path of the grammar. -/
def renderPPath : List PSeg → List Char
  | [] => []
  | [s] => renderPSeg s
  | s :: rest => renderPSeg s ++ '.' :: renderPPath rest

/-- The component sequence a grammar segment denotes. -/
def psegTokens (s : PSeg) : List Seg :=
  Seg.fld s.name ::
    (match s.index with | some ds => [Seg.idx (digitsToNat ds)] | none => [])

/-- The component sequence a grammar path denotes. -/
def pathTokens (l : List PSeg) : List Seg := l.bind psegTokens

/-- Well-formed grammar segment: nonempty word-character name; if an index
is present, its digit string is nonempty and all digits. -/
def goodPSeg (s : PSeg) : Bool :=
  (!s.name.isEmpty) && s.name.all isWordChar &&
    (match s.index with
     | none => true
     | some ds => (!ds.isEmpty) && ds.all Char.isDigit)

theorem word_not_special {c : Char} (h : isWordChar c = true) :
    isSpecialPathChar c = false := by
  by_contra hs
  have hs' : isSpecialPathChar c = true := by
    cases hcs : isSpecialPathChar c
    · exact absurd hcs hs
    · rfl
  simp only [isSpecialPathChar, decide_eq_true_eq] at hs'
  rcases hs' with rfl | rfl | rfl <;> simp [isWordChar] at h

theorem word_ne_bracket {c : Char} (h : isWordChar c = true) : c ≠ '[' := by
  intro hc
  subst hc
  simp [isWordChar] at h

theorem digit_word {c : Char} (h : c.isDigit = true) : isWordChar c = true := by
  simp only [isWordChar, Bool.decide_or, Bool.or_eq_true, decide_eq_true_eq]
  left
  simp [Char.isAlphanum, h]

theorem tok_field_run :
    ∀ (name : List Char), (∀ c ∈ name, isWordChar c = true) →
      ∀ (acc rest : List Char),
        tokRun (TokState.field acc) (name ++ rest) =
          tokRun (TokState.field (name.reverse ++ acc)) rest := by
  intro name
  induction name with
  | nil => intro _ acc rest; simp
  | cons c tl ih =>
    intro hw acc rest
    have hc : isWordChar c = true := hw c (List.mem_cons_self _ _)
    have htl : ∀ x ∈ tl, isWordChar x = true :=
      fun x hx => hw x (List.mem_cons_of_mem _ hx)
    simp only [List.cons_append, tokRun, word_ne_bracket hc,
      word_not_special hc, if_false, Bool.false_eq_true]
    rw [show (c :: tl).reverse ++ acc = tl.reverse ++ (c :: acc) by simp]
    exact ih htl (c :: acc) rest

theorem tok_digit_run :
    ∀ (ds : List Char), (∀ c ∈ ds, c.isDigit = true) →
      ∀ (acc rest : List Char),
        tokRun (TokState.bracket acc) (ds ++ rest) =
          tokRun (TokState.bracket (ds.reverse ++ acc)) rest := by
  intro ds
  induction ds with
  | nil => intro _ acc rest; simp
  | cons c tl ih =>
    intro hd acc rest
    have hc : c.isDigit = true := hd c (List.mem_cons_self _ _)
    have htl : ∀ x ∈ tl, x.isDigit = true :=
      fun x hx => hd x (List.mem_cons_of_mem _ hx)
    simp only [List.cons_append, tokRun, hc, if_true]
    rw [show (c :: tl).reverse ++ acc = tl.reverse ++ (c :: acc) by simp]
    exact ih htl (c :: acc) rest

theorem pp_seg_run :
    ∀ (name : List Char), (∀ c ∈ name, isWordChar c = true) →
      ∀ (acc rest : List Char),
        ppRun (PPState.seg acc) (name ++ rest) =
          ppRun (PPState.seg (name.reverse ++ acc)) rest := by
  intro name
  induction name with
  | nil => intro _ acc rest; simp
  | cons c tl ih =>
    intro hw acc rest
    have hc : isWordChar c = true := hw c (List.mem_cons_self _ _)
    have htl : ∀ x ∈ tl, isWordChar x = true :=
      fun x hx => hw x (List.mem_cons_of_mem _ hx)
    simp only [List.cons_append, ppRun, hc, if_true]
    rw [show (c :: tl).reverse ++ acc = tl.reverse ++ (c :: acc) by simp]
    exact ih htl (c :: acc) rest

theorem pp_digit_run :
    ∀ (ds : List Char), (∀ c ∈ ds, c.isDigit = true) →
      ∀ (w acc rest : List Char),
        ppRun (PPState.brk w acc) (ds ++ rest) =
          ppRun (PPState.brk w (ds.reverse ++ acc)) rest := by
  intro ds
  induction ds with
  | nil => intro _ w acc rest; simp
  | cons c tl ih =>
    intro hd w acc rest
    have hc : c.isDigit = true := hd c (List.mem_cons_self _ _)
    have htl : ∀ x ∈ tl, x.isDigit = true :=
      fun x hx => hd x (List.mem_cons_of_mem _ hx)
    simp only [List.cons_append, ppRun, hc, if_true]
    rw [show (c :: tl).reverse ++ acc = tl.reverse ++ (c :: acc) by simp]
    exact ih htl w (c :: acc) rest

theorem goodPSeg_parts {s : PSeg} (h : goodPSeg s = true) :
    s.name ≠ [] ∧ (∀ c ∈ s.name, isWordChar c = true) ∧
      (∀ ds, s.index = some ds → ds ≠ [] ∧ ∀ c ∈ ds, c.isDigit = true) := by
  unfold goodPSeg at h
  simp only [Bool.and_eq_true, Bool.not_eq_true'] at h
  obtain ⟨⟨hne, hall⟩, hidx⟩ := h
  refine ⟨by simpa [List.isEmpty_iff] using hne,
          by simpa [List.all_eq_true] using hall, ?_⟩
  intro ds hds
  rw [hds] at hidx
  simp only [Bool.and_eq_true, Bool.not_eq_true'] at hidx
  obtain ⟨h1, h2⟩ := hidx
  exact ⟨by simpa [List.isEmpty_iff] using h1,
         by simpa [List.all_eq_true] using h2⟩

theorem tok_start_to_field (name : List Char) (hne : name ≠ [])
    (hw : ∀ c ∈ name, isWordChar c = true) (rest : List Char) :
    tokRun TokState.start (name ++ rest) =
      tokRun (TokState.field name.reverse) rest := by
  cases name with
  | nil => exact absurd rfl hne
  | cons c tl =>
    have hc : isWordChar c = true := hw c (List.mem_cons_self _ _)
    have htl : ∀ x ∈ tl, isWordChar x = true :=
      fun x hx => hw x (List.mem_cons_of_mem _ hx)
    simp only [List.cons_append, tokRun, word_ne_bracket hc,
      word_not_special hc, if_false, Bool.false_eq_true]
    rw [show (c :: tl).reverse = tl.reverse ++ [c] by simp]
    exact tok_field_run tl htl [c] rest

theorem pp_start_to_seg (name : List Char)
    (hw : ∀ c ∈ name, isWordChar c = true) (rest : List Char) :
    ppRun (PPState.seg []) (name ++ rest) =
      ppRun (PPState.seg name.reverse) rest := by
  have := pp_seg_run name hw [] rest
  simpa using this

/-- C10 (corrected), amended claim.  On every nonempty dotted path whose
segments are nonempty word-character names each followed by at most one
bracketed decimal index, the reader's regex tokenization and the spec
module's `parse_path` produce exactly the same component sequence — the
fields and the integer indices of the grammar, in order. -/
theorem c10_amended_agreement_on_single_bracket_paths :
    ∀ l : List PSeg, l ≠ [] → (∀ s ∈ l, goodPSeg s = true) →
      tokenizePath (renderPPath l) = pathTokens l ∧
      parse_path (renderPPath l) = pathTokens l := by
  intro l
  induction l with
  | nil => intro h; exact absurd rfl h
  | cons s tl ih =>
    intro _ hgood
    obtain ⟨hname, hword, hidx⟩ := goodPSeg_parts (hgood s (List.mem_cons_self _ _))
    have hnrev : s.name.reverse ≠ [] := by simpa using hname
    cases tl with
    | nil =>
      cases hix : s.index with
      | none =>
        have hrender : renderPPath [s] = s.name ++ [] := by
          simp [renderPPath, renderPSeg, hix]
        have htoks : pathTokens [s] = [Seg.fld s.name] := by
          simp [pathTokens, psegTokens, hix]
        constructor
        · rw [tokenizePath, hrender, tok_start_to_field s.name hname hword, htoks]
          simp [tokRun, tokFlush]
        · rw [parse_path, hrender, pp_start_to_seg s.name hword, htoks]
          simp [ppRun, ppFlush, hnrev]
      | some ds =>
        obtain ⟨hds, hdig⟩ := hidx ds hix
        have hdrev : ds.reverse ≠ [] := by simpa using hds
        have hrender : renderPPath [s] = s.name ++ ('[' :: (ds ++ [']'])) := by
          simp [renderPPath, renderPSeg, hix]
        have htoks : pathTokens [s] =
            [Seg.fld s.name, Seg.idx (digitsToNat ds)] := by
          simp [pathTokens, psegTokens, hix]
        constructor
        · rw [tokenizePath, hrender, tok_start_to_field s.name hname hword, htoks]
          simp only [tokRun, if_pos rfl]
          rw [show (ds ++ [']'] : List Char) = ds ++ (']' :: []) from rfl]
          rw [tok_digit_run ds hdig [] (']' :: [])]
          simp [tokRun, hdrev, tokFlush]
        · rw [parse_path, hrender, pp_start_to_seg s.name hword, htoks]
          have hlb : isWordChar '[' = false := by decide
          simp only [ppRun, hlb, Bool.false_eq_true, if_false,
            if_neg (by decide : ¬ ('[' : Char) = '.'), if_pos rfl, hnrev]
          rw [show (ds ++ [']'] : List Char) = ds ++ (']' :: []) from rfl]
          rw [pp_digit_run ds hdig s.name.reverse [] (']' :: [])]
          simp only [List.append_nil]
          have hrb : (']' : Char).isDigit = false := by decide
          simp [ppRun, hrb, hdrev, ppFlush]
    | cons s2 tl2 =>
      have ihr := ih (by simp) (fun q hq => hgood q (List.mem_cons_of_mem _ hq))
      cases hix : s.index with
      | none =>
        have hrender : renderPPath (s :: s2 :: tl2) =
            s.name ++ ('.' :: renderPPath (s2 :: tl2)) := by
          simp [renderPPath, renderPSeg, hix]
        have htoks : pathTokens (s :: s2 :: tl2) =
            Seg.fld s.name :: pathTokens (s2 :: tl2) := by
          simp [pathTokens, psegTokens, hix]
        constructor
        · rw [hrender] at *
          rw [tokenizePath, tok_start_to_field s.name hname hword, htoks]
          have hds : isSpecialPathChar '.' = true := by decide
          simp only [tokRun, if_neg (by decide : ¬ ('.' : Char) = '['), hds,
            if_pos rfl, if_true, List.reverse_reverse]
          rw [← tokenizePath, ihr.1]
        · rw [parse_path, hrender, pp_start_to_seg s.name hword, htoks]
          have hwd : isWordChar '.' = false := by decide
          simp only [ppRun, hwd, Bool.false_eq_true, if_false, if_pos rfl,
            if_true, List.reverse_reverse]
          rw [← parse_path, ihr.2]
      | some ds =>
        obtain ⟨hds, hdig⟩ := hidx ds hix
        have hdrev : ds.reverse ≠ [] := by simpa using hds
        have hrender : renderPPath (s :: s2 :: tl2) =
            s.name ++ ('[' :: (ds ++ (']' :: '.' :: renderPPath (s2 :: tl2)))) := by
          simp [renderPPath, renderPSeg, hix]
        have htoks : pathTokens (s :: s2 :: tl2) =
            Seg.fld s.name :: Seg.idx (digitsToNat ds) :: pathTokens (s2 :: tl2) := by
          simp [pathTokens, psegTokens, hix]
        constructor
        · rw [tokenizePath, hrender, tok_start_to_field s.name hname hword, htoks]
          simp only [tokRun, if_pos rfl]
          rw [tok_digit_run ds hdig [] (']' :: '.' :: renderPPath (s2 :: tl2))]
          have hds2 : isSpecialPathChar '.' = true := by decide
          simp only [tokRun, hdrev, if_neg hdrev, List.append_nil,
            List.reverse_reverse, if_neg (by decide : ¬ (']' : Char).isDigit = true),
            if_pos rfl, if_true, if_false, if_neg (by decide : ¬ ('.' : Char) = '['),
            hds2, List.reverse_reverse]
          rw [← tokenizePath, ihr.1]
        · rw [parse_path, hrender, pp_start_to_seg s.name hword, htoks]
          have hlb : isWordChar '[' = false := by decide
          simp only [ppRun, hlb, Bool.false_eq_true, if_false,
            if_neg (by decide : ¬ ('[' : Char) = '.'), if_pos rfl, hnrev]
          rw [pp_digit_run ds hdig s.name.reverse [] (']' :: '.' :: renderPPath (s2 :: tl2))]
          simp only [List.append_nil]
          have hrb : (']' : Char).isDigit = false := by decide
          simp only [ppRun, hrb, Bool.false_eq_true, if_false, hdrev,
            true_and, if_pos hdrev, List.reverse_reverse, if_pos rfl, if_true]
          rw [← parse_path, ihr.2]

/-- Witness for the amended C10: the concrete path channels[1].name is
tokenized by the reader's tokenizer and by the spec module's parse_path
to the same sequence, channels, index 1, name. -/
theorem c10_amended_agreement_witness :
    tokenizePath (renderPPath
        [⟨("channels".data), some ("1".data)⟩, ⟨("name".data), none⟩]) =
      [Seg.fld ("channels".data), Seg.idx 1, Seg.fld ("name".data)] ∧
    parse_path (renderPPath
        [⟨("channels".data), some ("1".data)⟩, ⟨("name".data), none⟩]) =
      [Seg.fld ("channels".data), Seg.idx 1, Seg.fld ("name".data)] := by
  have h := c10_amended_agreement_on_single_bracket_paths
      [⟨("channels".data), some ("1".data)⟩, ⟨("name".data), none⟩]
      (List.cons_ne_nil _ _) (by decide)
  exact ⟨h.1.trans (by decide), h.2.trans (by decide)⟩

/-! ## Round-trip of scalar-valued namespaced records (amended C2) -/

/-- A dotted-path segment the reader's regex scans as one field run: nonempty
and free of the special characters `.`, `[`, `]`. -/
def goodSeg (s : List Char) : Bool :=
  (!s.isEmpty) && s.all (fun c => !isSpecialPathChar c)

/-- A value the flattener stores whole: neither a dict nor a list, or a list
of only simple items (the writer inlines exactly these). -/
def goodVal : JValue → Bool
  | JValue.arr xs => xs.all jIsSimple
  | JValue.obj _ => false
  | _ => true

/-- Tail of a dotted rendering: a dot before every further segment. -/
def dotTail : List (List Char) → List Char
  | [] => []
  | s :: tl => '.' :: (s ++ dotTail tl)

/-- Join path segments with dots, the key syntax the writer emits through
`path. key` concatenation. -/
def renderDotted : List (List Char) → List Char
  | [] => []
  | s :: tl => s ++ dotTail tl

/-- A structured extension record: namespace, path segments and value. -/
structure XRec where
  ns : List Char
  segs : List (List Char)
  val : JValue

/-- The flat header entry a structured record denotes. -/
def renderXRec (r : XRec) : List Char × JValue :=
  (r.ns ++ ':' :: renderDotted r.segs, r.val)

/-- The record as a namespace-tagged triple. -/
def toTriple (r : XRec) : List Char × List (List Char) × JValue :=
  (r.ns, r.segs, r.val)

/-- Well-formedness of a structured record: colon-free namespace, nonempty
list of well-formed segments, storable value. -/
def goodXRec (r : XRec) : Bool :=
  r.ns.all (fun c => !(c == ':')) && (!r.segs.isEmpty) &&
    r.segs.all goodSeg && goodVal r.val

/-- Two records may coexist when, within one namespace, neither path is a
prefix of the other. -/
def incompXRec (r1 r2 : XRec) : Prop :=
  r1.ns = r2.ns → ¬ r1.segs <+: r2.segs ∧ ¬ r2.segs <+: r1.segs

mutual
/-- Leaves of a merged tree node, tagged with their segment paths: the node
itself when it is not a dict. -/
def leavesV : JValue → List (List (List Char) × JValue)
  | JValue.obj kvs => leavesF kvs
  | v => [([], v)]

/-- Leaves of a dict, with the owning key prepended to each path. -/
def leavesF : List (List Char × JValue) → List (List (List Char) × JValue)
  | [] => []
  | (k, v) :: tl => (leavesV v).map (fun pv => (k :: pv.1, pv.2)) ++ leavesF tl
end

mutual
/-- A tree is pure when every non-dict node is a storable value. -/
def pureV : JValue → Bool
  | JValue.obj kvs => pureF kvs
  | v => goodVal v

/-- Purity of every value of a dict. -/
def pureF : List (List Char × JValue) → Bool
  | [] => true
  | (_, v) :: tl => pureV v && pureF tl
end

mutual
/-- Size of a tree node, for strong induction over trees. -/
def jsizeV : JValue → Nat
  | JValue.obj kvs => jsizeF kvs + 1
  | _ => 1

/-- Size of a dict. -/
def jsizeF : List (List Char × JValue) → Nat
  | [] => 0
  | (_, v) :: tl => jsizeV v + jsizeF tl + 1
end

/-- The child path built by the flattener: the key at the root, dotted
concatenation below it. -/
def extendPath (path k : List Char) : List Char :=
  if path = [] then k else path ++ '.' :: k

/-- Split a key at its first dot, mirroring `splitFirstColon`. -/
def splitFirstDot : List Char → Option (List Char × List Char)
  | [] => none
  | c :: tl =>
      if c = '.' then some ([], tl)
      else (splitFirstDot tl).map (fun p => (c :: p.1, p.2))

theorem goodSeg_parts {s : List Char} (h : goodSeg s = true) :
    s ≠ [] ∧ ∀ c ∈ s, isSpecialPathChar c = false := by
  unfold goodSeg at h
  simp only [Bool.and_eq_true, Bool.not_eq_true', List.all_eq_true] at h
  refine ⟨by simpa [ List.isEmpty_iff] using h.1, fun c hc => ?_⟩
  have := h.2 c hc
  simpa using this

theorem goodXRec_parts {r : XRec} (h : goodXRec r = true) :
    (∀ c ∈ r.ns, ¬ c = ':') ∧ r.segs ≠ [] ∧
      (∀ s ∈ r.segs, goodSeg s = true) ∧ goodVal r.val = true := by
  unfold goodXRec at h
  simp only [Bool.and_eq_true, Bool.not_eq_true', List.all_eq_true] at h
  obtain ⟨⟨⟨h1, h2⟩, h3⟩, h4⟩ := h
  refine ⟨fun c hc => ?_, by simpa [ List.isEmpty_iff] using h2,
    fun s hs => h3 s hs, h4⟩
  have := h1 c hc
  simpa using this

theorem nonspecial_not_bracket {c : Char} (h : isSpecialPathChar c = false) :
    ¬ c = '[' := by
  intro hc
  subst hc
  exact absurd h (by decide)

theorem nonspecial_not_dot {c : Char} (h : isSpecialPathChar c = false) :
    ¬ c = '.' := by
  intro hc
  subst hc
  exact absurd h (by decide)

theorem tok_plain_run :
    ∀ (s : List Char), (∀ c ∈ s, isSpecialPathChar c = false) →
      ∀ (acc rest : List Char),
        tokRun (TokState.field acc) (s ++ rest) =
          tokRun (TokState.field (s.reverse ++ acc)) rest := by
  intro s
  induction s with
  | nil => intro _ acc rest; simp
  | cons c tl ih =>
    intro h acc rest
    have hc : isSpecialPathChar c = false := h c (List.mem_cons_self _ _)
    have htl : ∀ x ∈ tl, isSpecialPathChar x = false :=
      fun x hx => h x (List.mem_cons_of_mem _ hx)
    simp only [List.cons_append, tokRun, nonspecial_not_bracket hc, hc,
      if_false, Bool.false_eq_true]
    rw [show (c :: tl).reverse ++ acc = tl.reverse ++ (c :: acc) by simp]
    exact ih htl (c :: acc) rest

theorem tok_start_plain (s : List Char) (hne : s ≠ [])
    (h : ∀ c ∈ s, isSpecialPathChar c = false) (rest : List Char) :
    tokRun TokState.start (s ++ rest) = tokRun (TokState.field s.reverse) rest := by
  cases s with
  | nil => exact absurd rfl hne
  | cons c tl =>
    have hc : isSpecialPathChar c = false := h c (List.mem_cons_self _ _)
    have htl : ∀ x ∈ tl, isSpecialPathChar x = false :=
      fun x hx => h x (List.mem_cons_of_mem _ hx)
    simp only [List.cons_append, tokRun, nonspecial_not_bracket hc, hc,
      if_false, Bool.false_eq_true]
    rw [show (c :: tl).reverse = tl.reverse ++ [c] by simp]
    exact tok_plain_run tl htl [c] rest

theorem tok_dotted :
    ∀ (segs : List (List Char)), segs ≠ [] → (∀ s ∈ segs, goodSeg s = true) →
      tokenizePath (renderDotted segs) = segs.map Seg.fld := by
  intro segs
  induction segs with
  | nil => intro h; exact absurd rfl h
  | cons s tl ih =>
    intro _ hgood
    obtain ⟨hs, hcs⟩ := goodSeg_parts (hgood s (List.mem_cons_self _ _))
    cases tl with
    | nil =>
      have hr : renderDotted [s] = s ++ ([] : List Char) := by
        simp [renderDotted, dotTail]
      rw [tokenizePath, hr, tok_start_plain s hs hcs []]
      simp [tokRun, tokFlush]
    | cons s2 tl2 =>
      have hr : renderDotted (s :: s2 :: tl2) =
          s ++ ('.' :: renderDotted (s2 :: tl2)) := by
        simp [renderDotted, dotTail]
      rw [tokenizePath, hr, tok_start_plain s hs hcs]
      have hds : isSpecialPathChar '.' = true := by decide
      simp only [tokRun, if_neg (by decide : ¬ ('.' : Char) = '['), hds,
        if_pos rfl, if_true, List.reverse_reverse]
      rw [← tokenizePath, ih (by simp) (fun q hq => hgood q (List.mem_cons_of_mem _ hq))]
      simp

theorem splitFirstColon_at :
    ∀ (ns : List Char), (∀ c ∈ ns, ¬ c = ':') → ∀ p,
      splitFirstColon (ns ++ ':' :: p) = some (ns, p) := by
  intro ns
  induction ns with
  | nil => intro _ p; simp [splitFirstColon]
  | cons c tl ih =>
    intro h p
    have hc : ¬ c = ':' := h c (List.mem_cons_self _ _)
    have htl : ∀ x ∈ tl, ¬ x = ':' := fun x hx => h x (List.mem_cons_of_mem _ hx)
    simp [splitFirstColon, if_neg hc, ih htl p]

theorem colonKey_inj {n1 n2 p1 p2 : List Char}
    (h1 : ∀ c ∈ n1, ¬ c = ':') (h2 : ∀ c ∈ n2, ¬ c = ':')
    (he : n1 ++ ':' :: p1 = n2 ++ ':' :: p2) : n1 = n2 ∧ p1 = p2 := by
  have e1 := splitFirstColon_at n1 h1 p1
  have e2 := splitFirstColon_at n2 h2 p2
  rw [he, e2] at e1
  have := Option.some.inj e1
  exact ⟨(congrArg Prod.fst this).symm, (congrArg Prod.snd this).symm⟩

theorem splitFirstDot_none :
    ∀ (s : List Char), (∀ c ∈ s, ¬ c = '.') → splitFirstDot s = none := by
  intro s
  induction s with
  | nil => intro _; rfl
  | cons c tl ih =>
    intro h
    have hc : ¬ c = '.' := h c (List.mem_cons_self _ _)
    simp [splitFirstDot, if_neg hc, ih (fun x hx => h x (List.mem_cons_of_mem _ hx))]

theorem splitFirstDot_at :
    ∀ (s : List Char), (∀ c ∈ s, ¬ c = '.') → ∀ r,
      splitFirstDot (s ++ '.' :: r) = some (s, r) := by
  intro s
  induction s with
  | nil => intro _ r; simp [splitFirstDot]
  | cons c tl ih =>
    intro h r
    have hc : ¬ c = '.' := h c (List.mem_cons_self _ _)
    simp [splitFirstDot, if_neg hc,
      ih (fun x hx => h x (List.mem_cons_of_mem _ hx)) r]

theorem goodSeg_no_dot {s : List Char} (h : ∀ c ∈ s, isSpecialPathChar c = false) :
    ∀ c ∈ s, ¬ c = '.' := fun c hc => nonspecial_not_dot (h c hc)

theorem renderDotted_inj :
    ∀ (s1 s2 : List (List Char)),
      (∀ s ∈ s1, goodSeg s = true) → (∀ s ∈ s2, goodSeg s = true) →
      renderDotted s1 = renderDotted s2 → s1 = s2 := by
  intro s1
  induction s1 with
  | nil =>
    intro s2 _ hg2 he
    cases s2 with
    | nil => rfl
    | cons b tl2 =>
      obtain ⟨hb, _⟩ := goodSeg_parts (hg2 b (List.mem_cons_self _ _))
      cases b with
      | nil => exact absurd rfl hb
      | cons c cs => simp [renderDotted] at he
  | cons a tl ih =>
    intro s2 hg1 hg2 he
    cases s2 with
    | nil =>
      obtain ⟨ha, _⟩ := goodSeg_parts (hg1 a (List.mem_cons_self _ _))
      cases a with
      | nil => exact absurd rfl ha
      | cons c cs => simp [renderDotted] at he
    | cons b tl2 =>
      obtain ⟨ha, hca⟩ := goodSeg_parts (hg1 a (List.mem_cons_self _ _))
      obtain ⟨hb, hcb⟩ := goodSeg_parts (hg2 b (List.mem_cons_self _ _))
      have hnda := goodSeg_no_dot hca
      have hndb := goodSeg_no_dot hcb
      cases tl with
      | nil =>
        cases tl2 with
        | nil =>
          have : a = b := by simpa [renderDotted, dotTail] using he
          rw [this]
        | cons b2 tl2' =>
          have hr1 : renderDotted [a] = a := by simp [renderDotted, dotTail]
          have hr2 : renderDotted (b :: b2 :: tl2') =
              b ++ '.' :: renderDotted (b2 :: tl2') := by
            simp [renderDotted, dotTail]
          rw [hr1, hr2] at he
          have e1 : splitFirstDot a = none := splitFirstDot_none a hnda
          have e2 := splitFirstDot_at b hndb (renderDotted (b2 :: tl2'))
          rw [← he] at e2
          rw [e1] at e2
          exact absurd e2 (by simp)
      | cons a2 tl' =>
        cases tl2 with
        | nil =>
          have hr1 : renderDotted (a :: a2 :: tl') =
              a ++ '.' :: renderDotted (a2 :: tl') := by
            simp [renderDotted, dotTail]
          have hr2 : renderDotted [b] = b := by simp [renderDotted, dotTail]
          rw [hr1, hr2] at he
          have e1 := splitFirstDot_at a hnda (renderDotted (a2 :: tl'))
          have e2 : splitFirstDot b = none := splitFirstDot_none b hndb
          rw [he, e2] at e1
          exact absurd e1 (by simp)
        | cons b2 tl2' =>
          have hr1 : renderDotted (a :: a2 :: tl') =
              a ++ '.' :: renderDotted (a2 :: tl') := by
            simp [renderDotted, dotTail]
          have hr2 : renderDotted (b :: b2 :: tl2') =
              b ++ '.' :: renderDotted (b2 :: tl2') := by
            simp [renderDotted, dotTail]
          rw [hr1, hr2] at he
          have e1 := splitFirstDot_at a hnda (renderDotted (a2 :: tl'))
          have e2 := splitFirstDot_at b hndb (renderDotted (b2 :: tl2'))
          rw [he, e2] at e1
          have hab := Option.some.inj e1
          have h1 : b = a := congrArg Prod.fst hab
          have h2 : renderDotted (b2 :: tl2') = renderDotted (a2 :: tl') :=
        congrArg Prod.snd hab
          rw [← h1]
          have := ih (b2 :: tl2')
            (fun q hq => hg1 q (List.mem_cons_of_mem _ hq))
            (fun q hq => hg2 q (List.mem_cons_of_mem _ hq)) h2.symm
          rw [this]

theorem assocLookup_none_append {kvs : List (List Char × JValue)} {k : List Char}
    (h : assocLookup kvs k = none) (b : List (List Char × JValue)) :
    assocLookup (kvs ++ b) k = assocLookup b k := by
  induction kvs with
  | nil => simp
  | cons p tl ih =>
    obtain ⟨k', v'⟩ := p
    by_cases hk : k' = k
    · simp [assocLookup, hk] at h
    · simp only [assocLookup, hk, if_false] at h
      simp only [List.cons_append, assocLookup, hk, if_false]
      exact ih h

theorem dictSet_fresh {kvs : List (List Char × JValue)} {k : List Char}
    (h : assocLookup kvs k = none) (v : JValue) :
    dictSet kvs k v = kvs ++ [(k, v)] := by
  induction kvs with
  | nil => rfl
  | cons p tl ih =>
    obtain ⟨k', v'⟩ := p
    by_cases hk : k' = k
    · simp [assocLookup, hk] at h
    · simp only [assocLookup, hk, if_false] at h
      simp [dictSet, hk, ih h]

theorem leavesF_append (a b : List (List Char × JValue)) :
    leavesF (a ++ b) = leavesF a ++ leavesF b := by
  induction a with
  | nil => simp [leavesF]
  | cons p tl ih =>
    obtain ⟨k, v⟩ := p
    simp [leavesF, ih]

theorem pureF_append {a b : List (List Char × JValue)}
    (ha : pureF a = true) (hb : pureF b = true) : pureF (a ++ b) = true := by
  induction a with
  | nil => simpa using hb
  | cons p tl ih =>
    obtain ⟨k, v⟩ := p
    simp only [pureF, Bool.and_eq_true] at ha
    simp only [List.cons_append, pureF, Bool.and_eq_true]
    exact ⟨ha.1, ih ha.2⟩

theorem pureF_lookup {kvs : List (List Char × JValue)} {s : List Char} {w : JValue}
    (hp : pureF kvs = true) (hl : assocLookup kvs s = some w) : pureV w = true := by
  induction kvs with
  | nil => simp [assocLookup] at hl
  | cons p tl ih =>
    obtain ⟨k', v'⟩ := p
    simp only [pureF, Bool.and_eq_true] at hp
    by_cases hk : k' = s
    · simp only [assocLookup, hk, if_pos rfl] at hl
      rw [← Option.some.inj hl]
      exact hp.1
    · simp only [assocLookup, hk, if_false] at hl
      exact ih hp.2 hl

theorem pureF_dictSet {kvs : List (List Char × JValue)} {s : List Char} {v : JValue}
    (hp : pureF kvs = true) (hv : pureV v = true) :
    pureF (dictSet kvs s v) = true := by
  induction kvs with
  | nil => simpa [dictSet, pureF] using hv
  | cons p tl ih =>
    obtain ⟨k', v'⟩ := p
    simp only [pureF, Bool.and_eq_true] at hp
    by_cases hk : k' = s
    · simp [dictSet, hk, pureF, hv, hp.2]
    · simp only [dictSet, hk, if_false, pureF, Bool.and_eq_true]
      exact ⟨hp.1, ih hp.2⟩

theorem leaves_lookup_mem {kvs : List (List Char × JValue)} {s : List Char}
    {w : JValue} (hl : assocLookup kvs s = some w) :
    ∀ x ∈ leavesV w, (s :: x.1, x.2) ∈ leavesF kvs := by
  induction kvs with
  | nil => simp [assocLookup] at hl
  | cons p tl ih =>
    obtain ⟨k', v'⟩ := p
    intro x hx
    by_cases hk : k' = s
    · simp only [assocLookup, hk, if_pos rfl, if_true] at hl
      have hw : v' = w := Option.some.inj hl
      subst hw
      simp only [leavesF, List.mem_append, List.mem_map]
      exact Or.inl ⟨x, hx, by rw [hk]⟩
    · simp only [assocLookup, hk, if_false] at hl
      simp only [leavesF, List.mem_append]
      exact Or.inr (ih hl x hx)

theorem leavesF_dictSet_replace {kvs : List (List Char × JValue)} {s : List Char}
    {w : JValue} (hl : assocLookup kvs s = some w) (r : JValue) :
    ∃ A B, leavesF (dictSet kvs s r) =
        A ++ (leavesV r).map (fun pv => (s :: pv.1, pv.2)) ++ B ∧
      leavesF kvs = A ++ (leavesV w).map (fun pv => (s :: pv.1, pv.2)) ++ B := by
  induction kvs with
  | nil => simp [assocLookup] at hl
  | cons p tl ih =>
    obtain ⟨k', v'⟩ := p
    by_cases hk : k' = s
    · simp only [assocLookup, hk, if_pos rfl] at hl
      refine ⟨[], leavesF tl, ?_, ?_⟩
      · simp [dictSet, hk, leavesF]
      · rw [Option.some.inj hl] at *
        simp [leavesF, hk]
    · simp only [assocLookup, hk, if_false] at hl
      obtain ⟨A, B, h1, h2⟩ := ih hl
      refine ⟨(leavesV v').map (fun pv => (k' :: pv.1, pv.2)) ++ A, B, ?_, ?_⟩
      · simp [dictSet, hk, leavesF, h1]
      · simp [leavesF, h2]

theorem goodVal_leaves {v : JValue} (h : goodVal v = true) :
    leavesV v = [([], v)] := by
  cases v with
  | obj kvs => simp [goodVal] at h
  | arr xs => rfl
  | null => rfl
  | bool b => rfl
  | int n => rfl
  | str s => rfl

theorem goodVal_pure {v : JValue} (h : goodVal v = true) : pureV v = true := by
  cases v with
  | obj kvs => simp [goodVal] at h
  | arr xs => exact h
  | null => rfl
  | bool b => rfl
  | int n => rfl
  | str s => rfl

theorem setNested_insert :
    ∀ (segs : List (List Char)) (v : JValue) (kvs : List (List Char × JValue)),
      segs ≠ [] → goodVal v = true → pureF kvs = true →
      (∀ q ∈ (leavesF kvs).map Prod.fst, ¬ q <+: segs ∧ ¬ segs <+: q) →
      ∃ kvs' l1 l2,
        setNestedAux v (segs.map Seg.fld) (JValue.obj kvs) =
            some (JValue.obj kvs') ∧
        pureF kvs' = true ∧
        leavesF kvs' = l1 ++ (segs, v) :: l2 ∧ leavesF kvs = l1 ++ l2 := by
  intro segs
  induction segs with
  | nil => intro v kvs h; exact absurd rfl h
  | cons s tl ih =>
    intro v kvs _ hv hp hinc
    cases tl with
    | nil =>
      have hstep : setNestedAux v ([s].map Seg.fld) (JValue.obj kvs) =
          some (JValue.obj (dictSet kvs s v)) := rfl
      cases hl : assocLookup kvs s with
      | none =>
        refine ⟨dictSet kvs s v, leavesF kvs, [], hstep,
          pureF_dictSet hp (goodVal_pure hv), ?_, by simp⟩
        rw [dictSet_fresh hl v, leavesF_append]
        simp [leavesF, goodVal_leaves hv]
      | some w =>
        obtain ⟨A, B, h1, h2⟩ := leavesF_dictSet_replace hl v
        have hwnil : leavesV w = [] := by
          cases hlw : leavesV w with
          | nil => rfl
          | cons x xs =>
            have hmem : (s :: x.1, x.2) ∈ leavesF kvs :=
              leaves_lookup_mem hl x (by rw [hlw]; exact List.mem_cons_self _ _)
            have h2' := (hinc (s :: x.1) (List.mem_map_of_mem _ hmem)).2
            exact absurd ⟨x.1, rfl⟩ h2'
        rw [hwnil] at h2
        simp only [List.map_nil, List.nil_append, List.append_nil] at h2
        refine ⟨dictSet kvs s v, A, B, hstep,
          pureF_dictSet hp (goodVal_pure hv), ?_, h2⟩
        rw [h1, goodVal_leaves hv]
        simp
    | cons s2 rest =>
      cases hl : assocLookup kvs s with
      | none =>
        obtain ⟨c', l1, l2, hrec, hpure, hle, hold⟩ :=
          ih v [] (by simp) hv rfl (by simp [leavesF])
        obtain ⟨rfl, rfl⟩ := List.append_eq_nil.mp hold.symm
        have hstep : setNestedAux v ((s :: s2 :: rest).map Seg.fld)
            (JValue.obj kvs) =
            some (JValue.obj (dictSet kvs s (JValue.obj c'))) := by
          simp only [List.map_cons]
          simp only [setNestedAux, hl, newContainer]
          simp only [List.map_cons] at hrec
          rw [hrec]
        refine ⟨dictSet kvs s (JValue.obj c'), leavesF kvs, [], hstep,
          pureF_dictSet hp (show pureV (JValue.obj c') = true from hpure),
          ?_, by simp⟩
        rw [dictSet_fresh hl, leavesF_append]
        have hlv : leavesV (JValue.obj c') = leavesF c' := rfl
        simp [leavesF, hlv, hle]
      | some w =>
        cases w with
        | obj ckvs =>
          have hpc : pureF ckvs = true := pureF_lookup hp hl
          have hincc : ∀ q ∈ (leavesF ckvs).map Prod.fst,
              ¬ q <+: (s2 :: rest) ∧ ¬ (s2 :: rest) <+: q := by
            intro q hq
            obtain ⟨x, hx, hfst⟩ := List.mem_map.mp hq
            have hmem := leaves_lookup_mem hl x hx
            have h2 := hinc (s :: x.1) (List.mem_map_of_mem _ hmem)
            subst hfst
            constructor
            · intro hp'
              exact h2.1 (List.cons_prefix_cons.mpr ⟨rfl, hp'⟩)
            · intro hp'
              exact h2.2 (List.cons_prefix_cons.mpr ⟨rfl, hp'⟩)
          obtain ⟨c', l1, l2, hrec, hpure, hle, hold⟩ :=
            ih v ckvs (by simp) hv hpc hincc
          obtain ⟨A, B, h1, h2⟩ := leavesF_dictSet_replace hl (JValue.obj c')
          have hstep : setNestedAux v ((s :: s2 :: rest).map Seg.fld)
              (JValue.obj kvs) =
              some (JValue.obj (dictSet kvs s (JValue.obj c'))) := by
            simp only [List.map_cons]
            simp only [setNestedAux, hl]
            simp only [List.map_cons] at hrec
            rw [hrec]
          refine ⟨dictSet kvs s (JValue.obj c'),
            A ++ l1.map (fun pv => (s :: pv.1, pv.2)),
            l2.map (fun pv => (s :: pv.1, pv.2)) ++ B,
            hstep,
            pureF_dictSet hp (show pureV (JValue.obj c') = true from hpure),
            ?_, ?_⟩
          · rw [h1]
            have hlv : leavesV (JValue.obj c') = leavesF c' := rfl
            rw [hlv, hle]
            simp [List.map_append, List.append_assoc]
          · rw [h2]
            have hlv : leavesV (JValue.obj ckvs) = leavesF ckvs := rfl
            rw [hlv, hold]
            simp [List.map_append, List.append_assoc]
        | null =>
          have hmem : (s :: ([] : List (List Char)), JValue.null) ∈ leavesF kvs :=
            leaves_lookup_mem hl ([], JValue.null) (by simp [leavesV])
          exact absurd ⟨s2 :: rest, rfl⟩
            (hinc [s] (List.mem_map_of_mem _ hmem)).1
        | bool b =>
          have hmem : (s :: ([] : List (List Char)), JValue.bool b) ∈ leavesF kvs :=
            leaves_lookup_mem hl ([], JValue.bool b) (by simp [leavesV])
          exact absurd ⟨s2 :: rest, rfl⟩
            (hinc [s] (List.mem_map_of_mem _ hmem)).1
        | int n =>
          have hmem : (s :: ([] : List (List Char)), JValue.int n) ∈ leavesF kvs :=
            leaves_lookup_mem hl ([], JValue.int n) (by simp [leavesV])
          exact absurd ⟨s2 :: rest, rfl⟩
            (hinc [s] (List.mem_map_of_mem _ hmem)).1
        | str st =>
          have hmem : (s :: ([] : List (List Char)), JValue.str st) ∈ leavesF kvs :=
            leaves_lookup_mem hl ([], JValue.str st) (by simp [leavesV])
          exact absurd ⟨s2 :: rest, rfl⟩
            (hinc [s] (List.mem_map_of_mem _ hmem)).1
        | arr xs =>
          have hmem : (s :: ([] : List (List Char)), JValue.arr xs) ∈ leavesF kvs :=
            leaves_lookup_mem hl ([], JValue.arr xs) (by simp [leavesV])
          exact absurd ⟨s2 :: rest, rfl⟩
            (hinc [s] (List.mem_map_of_mem _ hmem)).1

/-- A seg-level record rendered as the flat pair `buildTree` consumes. -/
def renderFRec (fr : List (List Char) × JValue) : List Char × JValue :=
  (renderDotted fr.1, fr.2)

theorem set_nested_value_good {tree : List (List Char × JValue)}
    {segs : List (List Char)} {v : JValue}
    (hne : segs ≠ []) (hgs : ∀ s ∈ segs, goodSeg s = true)
    (hv : goodVal v = true) (hp : pureF tree = true)
    (hinc : ∀ q ∈ (leavesF tree).map Prod.fst, ¬ q <+: segs ∧ ¬ segs <+: q) :
    ∃ tree' l1 l2, set_nested_value tree (renderDotted segs) v = some tree' ∧
      pureF tree' = true ∧
      leavesF tree' = l1 ++ (segs, v) :: l2 ∧ leavesF tree = l1 ++ l2 := by
  obtain ⟨kvs', l1, l2, hset, hpure, hle, hold⟩ :=
    setNested_insert segs v tree hne hv hp hinc
  refine ⟨kvs', l1, l2, ?_, hpure, hle, hold⟩
  unfold set_nested_value
  rw [tok_dotted segs hne hgs]
  cases segs with
  | nil => exact absurd rfl hne
  | cons s tl =>
    simp only [List.map_cons]
    simp only [List.map_cons] at hset
    rw [hset]

theorem buildTree_inserts :
    ∀ (frecs : List (List (List Char) × JValue)) (tree : List (List Char × JValue)),
      pureF tree = true →
      (∀ fr ∈ frecs, fr.1 ≠ [] ∧ (∀ s ∈ fr.1, goodSeg s = true) ∧
        goodVal fr.2 = true) →
      (∀ fr ∈ frecs, ∀ q ∈ (leavesF tree).map Prod.fst,
        ¬ q <+: fr.1 ∧ ¬ fr.1 <+: q) →
      List.Pairwise (fun a b => ¬ a.1 <+: b.1 ∧ ¬ b.1 <+: a.1) frecs →
      ∃ tree', buildTree (frecs.map renderFRec) tree = some tree' ∧
        pureF tree' = true ∧ (leavesF tree').Perm (leavesF tree ++ frecs) := by
  intro frecs
  induction frecs with
  | nil =>
    intro tree hp _ _ _
    exact ⟨tree, rfl, hp, by simp⟩
  | cons fr tl ih =>
    intro tree hp hgood hinc hpw
    obtain ⟨hne, hgs, hv⟩ := hgood fr (List.mem_cons_self _ _)
    obtain ⟨tree1, l1, l2, hset, hp1, hle, hold⟩ :=
      set_nested_value_good hne hgs hv hp (hinc fr (List.mem_cons_self _ _))
    have hpw' := List.pairwise_cons.mp hpw
    have hinc1 : ∀ g ∈ tl, ∀ q ∈ (leavesF tree1).map Prod.fst,
        ¬ q <+: g.1 ∧ ¬ g.1 <+: q := by
      intro g hg q hq
      rw [hle] at hq
      simp only [List.map_append, List.map_cons, List.mem_append,
        List.mem_cons] at hq
      rcases hq with h1 | h1
      · refine hinc g (List.mem_cons_of_mem _ hg) q ?_
        rw [hold, List.map_append]
        exact List.mem_append.mpr (Or.inl h1)
      · rcases h1 with rfl | h2
        · exact ⟨(hpw'.1 g hg).1, (hpw'.1 g hg).2⟩
        · refine hinc g (List.mem_cons_of_mem _ hg) q ?_
          rw [hold, List.map_append]
          exact List.mem_append.mpr (Or.inr h2)
    obtain ⟨tree', hbt, hp', hperm⟩ := ih tree1 hp1
      (fun g hg => hgood g (List.mem_cons_of_mem _ hg)) hinc1 hpw'.2
    refine ⟨tree', ?_, hp', ?_⟩
    · simp only [List.map_cons, renderFRec, buildTree]
      rw [hset]
      exact hbt
    · have hstep1 : leavesF tree1 ++ tl = l1 ++ (fr.1, fr.2) :: (l2 ++ tl) := by
        rw [hle, List.append_assoc]
        rfl
      have hstep2 : leavesF tree ++ fr :: tl = (l1 ++ l2) ++ fr :: tl := by
        rw [hold]
      have hpA : (l1 ++ (fr.1, fr.2) :: (l2 ++ tl)).Perm
          ((fr.1, fr.2) :: (l1 ++ (l2 ++ tl))) := List.perm_middle
      have hpB : ((l1 ++ l2) ++ fr :: tl).Perm (fr :: ((l1 ++ l2) ++ tl)) :=
        List.perm_middle
      rw [hstep2]
      refine hperm.trans ?_
      rw [hstep1]
      refine hpA.trans ?_
      rw [← List.append_assoc]
      exact hpB.symm

theorem jsizeV_pos (v : JValue) : 1 ≤ jsizeV v := by
  cases v with
  | obj kvs => simp [jsizeV]
  | arr xs => simp [jsizeV]
  | null => simp [jsizeV]
  | bool b => simp [jsizeV]
  | int n => simp [jsizeV]
  | str s => simp [jsizeV]

theorem dictUpdate_append (acc x y : List (List Char × JValue)) :
    dictUpdate acc (x ++ y) = dictUpdate (dictUpdate acc x) y := by
  simp [dictUpdate, List.foldl_append]

theorem flatten_leaves_size :
    ∀ n : Nat,
      (∀ (v : JValue) (pre path : List Char) (acc : List (List Char × JValue)),
        jsizeV v ≤ n → pureV v = true →
        flatten_object pre v path acc =
          dictUpdate acc ((leavesV v).map
            (fun pv => (pre ++ ':' :: pv.1.foldl extendPath path, pv.2)))) ∧
      (∀ (kvs : List (List Char × JValue)) (pre path : List Char)
          (acc : List (List Char × JValue)),
        jsizeF kvs ≤ n → pureF kvs = true →
        flatten_fields pre kvs path acc =
          dictUpdate acc ((leavesF kvs).map
            (fun pv => (pre ++ ':' :: pv.1.foldl extendPath path, pv.2)))) := by
  intro n
  induction n with
  | zero =>
    constructor
    · intro v pre path acc hsz _
      have := jsizeV_pos v
      omega
    · intro kvs pre path acc hsz _
      cases kvs with
      | nil => simp [flatten_fields, leavesF, dictUpdate]
      | cons p tl =>
        obtain ⟨k, w⟩ := p
        have := jsizeV_pos w
        simp [jsizeF] at hsz
  | succ n ihn =>
    constructor
    · intro v pre path acc hsz hp
      cases v with
      | obj kvs =>
        have hsz' : jsizeF kvs ≤ n := by
          simp only [jsizeV] at hsz
          omega
        exact ihn.2 kvs pre path acc hsz' hp
      | arr xs =>
        have hs : xs.all jIsSimple = true := hp
        simp [flatten_object, hs, leavesV, dictUpdate, extendPath]
      | null => simp [flatten_object, leavesV, dictUpdate, extendPath]
      | bool b => simp [flatten_object, leavesV, dictUpdate, extendPath]
      | int i => simp [flatten_object, leavesV, dictUpdate, extendPath]
      | str st => simp [flatten_object, leavesV, dictUpdate, extendPath]
    · intro kvs pre path acc hsz hp
      cases kvs with
      | nil => simp [flatten_fields, leavesF, dictUpdate]
      | cons p tl =>
        obtain ⟨k, w⟩ := p
        have hszw : jsizeV w ≤ n := by
          simp only [jsizeF] at hsz
          omega
        have hszt : jsizeF tl ≤ n := by
          simp only [jsizeF] at hsz
          have := jsizeV_pos w
          omega
        simp only [pureF, Bool.and_eq_true] at hp
        have h1 := ihn.1 w pre (extendPath path k) acc hszw hp.1
        have h2 := ihn.2 tl pre path
          (flatten_object pre w (extendPath path k) acc) hszt hp.2
        have hmap : ((leavesV w).map (fun pv => (k :: pv.1, pv.2))).map
              (fun pv => (pre ++ ':' :: pv.1.foldl extendPath path, pv.2)) =
            (leavesV w).map
              (fun pv =>
                (pre ++ ':' :: pv.1.foldl extendPath (extendPath path k), pv.2)) := by
          rw [List.map_map]
          rfl
        simp only [leavesF, List.map_append, hmap]
        rw [dictUpdate_append, ← h1, ← h2]
        rfl

theorem flatten_fields_leaves (kvs : List (List Char × JValue)) (pre path : List Char)
    (acc : List (List Char × JValue)) (hp : pureF kvs = true) :
    flatten_fields pre kvs path acc =
      dictUpdate acc ((leavesF kvs).map
        (fun pv => (pre ++ ':' :: pv.1.foldl extendPath path, pv.2))) :=
  (flatten_leaves_size (jsizeF kvs)).2 kvs pre path acc (Nat.le_refl _) hp

theorem foldl_extendPath_ne :
    ∀ (p : List (List Char)) (path : List Char), path ≠ [] →
      p.foldl extendPath path = path ++ dotTail p := by
  intro p
  induction p with
  | nil => intro path _; simp [dotTail]
  | cons s tlp ih =>
    intro path hne
    simp only [List.foldl_cons]
    rw [show extendPath path s = path ++ '.' :: s from by simp [extendPath, hne]]
    rw [ih (path ++ '.' :: s) (by simp)]
    simp [dotTail, List.append_assoc]

theorem foldl_extendPath_nil :
    ∀ p : List (List Char), p ≠ [] → (∀ s ∈ p, s ≠ []) →
      p.foldl extendPath [] = renderDotted p := by
  intro p hp hs
  cases p with
  | nil => exact absurd rfl hp
  | cons s tlp =>
    simp only [List.foldl_cons]
    rw [show extendPath [] s = s from by simp [extendPath]]
    cases tlp with
    | nil => simp [renderDotted, dotTail]
    | cons s2 tl2 =>
      rw [foldl_extendPath_ne (s2 :: tl2) s (hs s (List.mem_cons_self _ _))]
      simp [renderDotted]

theorem dictUpdate_fresh :
    ∀ (l acc : List (List Char × JValue)),
      (∀ k ∈ l.map Prod.fst, assocLookup acc k = none) →
      (l.map Prod.fst).Nodup →
      dictUpdate acc l = acc ++ l := by
  intro l
  induction l with
  | nil => intro acc _ _; simp [dictUpdate]
  | cons p tl ih =>
    intro acc hfresh hnd
    obtain ⟨k, v⟩ := p
    have hkmem : k ∈ List.map Prod.fst ((k, v) :: tl) := by
      rw [List.map_cons]
      exact List.mem_cons_self _ _
    have hk : assocLookup acc k = none := hfresh k hkmem
    have hnd2 : (k :: tl.map Prod.fst).Nodup := by
      rw [List.map_cons] at hnd
      exact hnd
    have hnd' := List.nodup_cons.mp hnd2
    have hfresh' : ∀ k' ∈ tl.map Prod.fst,
        assocLookup (acc ++ [(k, v)]) k' = none := by
      intro k' hk'
      have hk'mem : k' ∈ List.map Prod.fst ((k, v) :: tl) := by
        rw [List.map_cons]
        exact List.mem_cons_of_mem _ hk'
      have h0 : assocLookup acc k' = none := hfresh k' hk'mem
      rw [assocLookup_none_append h0]
      have hne : ¬ k = k' := fun he => hnd'.1 (by rw [he]; exact hk')
      simp [assocLookup, hne]
    have hstep : dictUpdate acc ((k, v) :: tl) =
        dictUpdate (dictSet acc k v) tl := rfl
    rw [hstep, dictSet_fresh hk, ih (acc ++ [(k, v)]) hfresh' hnd'.2]
    simp

theorem flattenExtensionTrees_leaves :
    ∀ (exts : List (List Char × List (List Char × JValue)))
      (init : List (List Char × JValue)),
      (∀ pt ∈ exts, pureF pt.2 = true ∧
        ∀ x ∈ leavesF pt.2, x.1 ≠ [] ∧ ∀ s ∈ x.1, s ≠ []) →
      flattenExtensionTrees exts init =
        dictUpdate init (exts.bind (fun pt => (leavesF pt.2).map
          (fun x => (pt.1 ++ ':' :: renderDotted x.1, x.2)))) := by
  intro exts
  induction exts with
  | nil => intro init _; simp [flattenExtensionTrees, dictUpdate]
  | cons pt tl ih =>
    intro init hh
    obtain ⟨hp, hne⟩ := hh pt (List.mem_cons_self _ _)
    have hstep : flattenExtensionTrees (pt :: tl) init =
        flattenExtensionTrees tl (flatten_object pt.1 (JValue.obj pt.2) [] init) :=
      rfl
    rw [hstep]
    rw [ih _ (fun q hq => hh q (List.mem_cons_of_mem _ hq))]
    have hfo : flatten_object pt.1 (JValue.obj pt.2) [] init =
        flatten_fields pt.1 pt.2 [] init := rfl
    rw [hfo, flatten_fields_leaves pt.2 pt.1 [] init hp]
    rw [← dictUpdate_append]
    congr 1
    have hbind : (pt :: tl).bind
        (fun qt => (leavesF qt.2).map
          (fun x => (qt.1 ++ ':' :: renderDotted x.1, x.2))) =
        (leavesF pt.2).map (fun x => (pt.1 ++ ':' :: renderDotted x.1, x.2)) ++
          tl.bind (fun qt => (leavesF qt.2).map
            (fun x => (qt.1 ++ ':' :: renderDotted x.1, x.2))) := rfl
    rw [hbind]
    congr 1
    apply List.map_congr_left
    intro x hx
    obtain ⟨hx1, hx2⟩ := hne x hx
    rw [foldl_extendPath_nil x.1 hx1 hx2]

/-- Structured per-namespace grouping, with seg-level field lists. -/
def sGroupAdd (gs : List (List Char × List (List (List Char) × JValue)))
    (p : List Char) (segs : List (List Char)) (v : JValue) :
    List (List Char × List (List (List Char) × JValue)) :=
  match gs with
  | [] => [(p, [(segs, v)])]
  | (p', frs) :: tl =>
      if p' = p then (p', frs ++ [(segs, v)]) :: tl
      else (p', frs) :: sGroupAdd tl p segs v

/-- All group entries as namespace-tagged triples, in group order. -/
def taggedS (gs : List (List Char × List (List (List Char) × JValue))) :
    List (List Char × List (List Char) × JValue) :=
  gs.bind (fun g => g.2.map (fun fr => (g.1, fr.1, fr.2)))

/-- A structured group rendered into the string-keyed group that
`reader._process_extension_fields` accumulates. -/
def renderGroup (g : List Char × List (List (List Char) × JValue)) :
    List Char × List (List Char × JValue) :=
  (g.1, g.2.map renderFRec)

/-- A tagged triple rendered as a flat header record. -/
def tripleRender (t : List Char × List (List Char) × JValue) :
    List Char × JValue :=
  (t.1 ++ ':' :: renderDotted t.2.1, t.2.2)

/-- Compatibility of two tagged triples: within one namespace, neither path
is a prefix of the other. -/
def tripleR (t1 t2 : List Char × List (List Char) × JValue) : Prop :=
  t1.1 = t2.1 → ¬ t1.2.1 <+: t2.2.1 ∧ ¬ t2.2.1 <+: t1.2.1

theorem tripleR_symm : ∀ t1 t2, tripleR t1 t2 → tripleR t2 t1 := by
  intro t1 t2 h he
  obtain ⟨h1, h2⟩ := h he.symm
  exact ⟨h2, h1⟩

theorem taggedS_cons (q : List Char) (frs : List (List (List Char) × JValue))
    (tl : List (List Char × List (List (List Char) × JValue))) :
    taggedS ((q, frs) :: tl) =
      frs.map (fun fr => (q, fr.1, fr.2)) ++ taggedS tl := rfl

theorem assocLookup_none_of (kvs : List (List Char × JValue)) (k : List Char)
    (h : ∀ q ∈ kvs, ¬ q.1 = k) : assocLookup kvs k = none := by
  induction kvs with
  | nil => rfl
  | cons q tl ih =>
    obtain ⟨k', v'⟩ := q
    have hk : ¬ k' = k := h (k', v') (List.mem_cons_self _ _)
    simp only [assocLookup, hk, if_false]
    exact ih (fun x hx => h x (List.mem_cons_of_mem _ hx))

theorem groupAdd_render :
    ∀ (gs : List (List Char × List (List (List Char) × JValue)))
      (p : List Char) (segs : List (List Char)) (v : JValue),
      (∀ t ∈ taggedS gs, ∀ s ∈ t.2.1, goodSeg s = true) →
      (∀ s ∈ segs, goodSeg s = true) →
      (∀ t ∈ taggedS gs, t.1 = p → ¬ t.2.1 = segs) →
      groupAdd (gs.map renderGroup) p (renderDotted segs) v =
        (sGroupAdd gs p segs v).map renderGroup := by
  intro gs
  induction gs with
  | nil =>
    intro p segs v _ _ _
    simp [groupAdd, sGroupAdd, renderGroup, renderFRec]
  | cons g tl ih =>
    intro p segs v hgood hgs hfresh
    obtain ⟨p', frs⟩ := g
    by_cases hp : p' = p
    · subst hp
      have hfr : assocLookup (frs.map renderFRec) (renderDotted segs) = none := by
        apply assocLookup_none_of
        intro q hq
        obtain ⟨fr, hfrm, rfl⟩ := List.mem_map.mp hq
        intro hqe
        have htag : (p', fr.1, fr.2) ∈ taggedS ((p', frs) :: tl) := by
          rw [taggedS_cons]
          exact List.mem_append.mpr (Or.inl (List.mem_map_of_mem _ hfrm))
        have hfrg : ∀ s ∈ fr.1, goodSeg s = true := hgood _ htag
        have : fr.1 = segs := renderDotted_inj fr.1 segs hfrg hgs hqe
        exact hfresh _ htag rfl this
      simp only [List.map_cons, renderGroup, groupAdd, if_pos rfl, sGroupAdd]
      rw [dictSet_fresh hfr]
      simp [renderGroup, renderFRec]
    · have htl : ∀ t ∈ taggedS tl, ∀ s ∈ t.2.1, goodSeg s = true := by
        intro t ht
        refine hgood t ?_
        rw [taggedS_cons]
        exact List.mem_append.mpr (Or.inr ht)
      have hftl : ∀ t ∈ taggedS tl, t.1 = p → ¬ t.2.1 = segs := by
        intro t ht
        refine hfresh t ?_
        rw [taggedS_cons]
        exact List.mem_append.mpr (Or.inr ht)
      simp only [List.map_cons, renderGroup, groupAdd, if_neg hp, sGroupAdd]
      rw [ih p segs v htl hgs hftl]

theorem sGroupAdd_tagged :
    ∀ (gs : List (List Char × List (List (List Char) × JValue)))
      (p : List Char) (segs : List (List Char)) (v : JValue),
      ∃ t1 t2, taggedS (sGroupAdd gs p segs v) = t1 ++ (p, segs, v) :: t2 ∧
        taggedS gs = t1 ++ t2 := by
  intro gs
  induction gs with
  | nil =>
    intro p segs v
    exact ⟨[], [], rfl, rfl⟩
  | cons g tl ih =>
    intro p segs v
    obtain ⟨p', frs⟩ := g
    by_cases hp : p' = p
    · subst hp
      refine ⟨frs.map (fun fr => (p', fr.1, fr.2)), taggedS tl, ?_, ?_⟩
      · rw [show sGroupAdd ((p', frs) :: tl) p' segs v =
            (p', frs ++ [(segs, v)]) :: tl from by simp [sGroupAdd]]
        rw [taggedS_cons, List.map_append]
        simp
      · rw [taggedS_cons]
    · obtain ⟨t1, t2, h1, h2⟩ := ih p segs v
      refine ⟨frs.map (fun fr => (p', fr.1, fr.2)) ++ t1, t2, ?_, ?_⟩
      · simp only [sGroupAdd, if_neg hp, taggedS_cons, h1]
        simp [List.append_assoc]
      · rw [taggedS_cons, h2]
        simp [List.append_assoc]

theorem groupExtAux_renders :
    ∀ (recs : List XRec)
      (gs : List (List Char × List (List (List Char) × JValue)))
      (reg : List (List Char × JValue)),
      (∀ r ∈ recs, goodXRec r = true) →
      (∀ t ∈ taggedS gs, t.2.1 ≠ [] ∧ (∀ s ∈ t.2.1, goodSeg s = true) ∧
        goodVal t.2.2 = true) →
      List.Pairwise tripleR (taggedS gs ++ recs.map toTriple) →
      ∃ gs', groupExtAux (recs.map renderXRec) (gs.map renderGroup) reg =
          (gs'.map renderGroup, reg) ∧
        (taggedS gs').Perm (taggedS gs ++ recs.map toTriple) ∧
        (∀ t ∈ taggedS gs', t.2.1 ≠ [] ∧ (∀ s ∈ t.2.1, goodSeg s = true) ∧
          goodVal t.2.2 = true) := by
  intro recs
  induction recs with
  | nil =>
    intro gs reg _ htag _
    exact ⟨gs, rfl, by simp, htag⟩
  | cons r tl ih =>
    intro gs reg hgood htag hpw
    obtain ⟨hnc, hne, hsegs, hval⟩ :=
      goodXRec_parts (hgood r (List.mem_cons_self _ _))
    have hstep : groupExtAux ((r :: tl).map renderXRec) (gs.map renderGroup) reg =
        groupExtAux (tl.map renderXRec)
          (groupAdd (gs.map renderGroup) r.ns (renderDotted r.segs) r.val) reg := by
      simp only [List.map_cons, renderXRec, groupExtAux]
      rw [splitFirstColon_at r.ns hnc]
    have hfresh : ∀ t ∈ taggedS gs, t.1 = r.ns → ¬ t.2.1 = r.segs := by
      intro t ht hteq htseq
      have hpair := (List.pairwise_append.mp hpw).2.2 t ht (toTriple r)
        (List.mem_map_of_mem _ (List.mem_cons_self _ _))
      have h2 := hpair hteq
      exact h2.1 (by rw [htseq]; exact List.prefix_refl _)
    have htseg : ∀ t ∈ taggedS gs, ∀ s ∈ t.2.1, goodSeg s = true :=
      fun t ht => (htag t ht).2.1
    have hcomm := groupAdd_render gs r.ns r.segs r.val htseg hsegs hfresh
    obtain ⟨t1, t2, hsp1, hsp2⟩ := sGroupAdd_tagged gs r.ns r.segs r.val
    have htag2 : ∀ t ∈ taggedS (sGroupAdd gs r.ns r.segs r.val),
        t.2.1 ≠ [] ∧ (∀ s ∈ t.2.1, goodSeg s = true) ∧ goodVal t.2.2 = true := by
      intro t ht
      rw [hsp1] at ht
      rcases List.mem_append.mp ht with h1 | h1
      · exact htag t (by rw [hsp2]; exact List.mem_append.mpr (Or.inl h1))
      · rcases List.mem_cons.mp h1 with rfl | h2
        · exact ⟨hne, hsegs, hval⟩
        · exact htag t (by rw [hsp2]; exact List.mem_append.mpr (Or.inr h2))
    have hperm0 : (taggedS (sGroupAdd gs r.ns r.segs r.val) ++
        tl.map toTriple).Perm (taggedS gs ++ (r :: tl).map toTriple) := by
      rw [hsp1, hsp2, List.map_cons]
      have hA : (t1 ++ (r.ns, r.segs, r.val) :: (t2 ++ tl.map toTriple)).Perm
          ((r.ns, r.segs, r.val) :: (t1 ++ (t2 ++ tl.map toTriple))) :=
        List.perm_middle
      have hB : ((t1 ++ t2) ++ (r.ns, r.segs, r.val) :: tl.map toTriple).Perm
          ((r.ns, r.segs, r.val) :: ((t1 ++ t2) ++ tl.map toTriple)) :=
        List.perm_middle
      have hg1 : (t1 ++ (r.ns, r.segs, r.val) :: t2) ++ tl.map toTriple =
          t1 ++ (r.ns, r.segs, r.val) :: (t2 ++ tl.map toTriple) := by
        simp [List.append_assoc]
      rw [hg1]
      refine hA.trans ?_
      rw [← List.append_assoc]
      exact hB.symm
    have hpw2 : List.Pairwise tripleR
        (taggedS (sGroupAdd gs r.ns r.segs r.val) ++ tl.map toTriple) :=
      (List.Perm.pairwise_iff (fun h => tripleR_symm _ _ h) hperm0).mpr hpw
    obtain ⟨gs', heq, hperm, htag'⟩ := ih (sGroupAdd gs r.ns r.segs r.val) reg
      (fun x hx => hgood x (List.mem_cons_of_mem _ hx)) htag2 hpw2
    refine ⟨gs', ?_, ?_, htag'⟩
    · rw [hstep, hcomm]
      exact heq
    · exact hperm.trans hperm0

theorem taggedS_cons_general (g : List Char × List (List (List Char) × JValue))
    (tl : List (List Char × List (List (List Char) × JValue))) :
    taggedS (g :: tl) =
      g.2.map (fun fr => (g.1, fr.1, fr.2)) ++ taggedS tl := rfl

theorem taggedS_group_sublist :
    ∀ (gs : List (List Char × List (List (List Char) × JValue)))
      (g : List Char × List (List (List Char) × JValue)), g ∈ gs →
      List.Sublist (g.2.map (fun fr => (g.1, fr.1, fr.2))) (taggedS gs) := by
  intro gs
  induction gs with
  | nil => intro g hg; simp at hg
  | cons q tl ih =>
    intro g hg
    rcases List.mem_cons.mp hg with rfl | h2
    · rw [taggedS_cons_general g tl]
      exact List.sublist_append_left _ _
    · rw [taggedS_cons_general q tl]
      exact (ih g h2).trans (List.sublist_append_right _ _)

theorem buildExtensions_leaves :
    ∀ gs : List (List Char × List (List (List Char) × JValue)),
      (∀ t ∈ taggedS gs, t.2.1 ≠ [] ∧ (∀ s ∈ t.2.1, goodSeg s = true) ∧
        goodVal t.2.2 = true) →
      (∀ g ∈ gs, List.Pairwise (fun a b => ¬ a.1 <+: b.1 ∧ ¬ b.1 <+: a.1) g.2) →
      ∃ exts, buildExtensions (gs.map renderGroup) = some exts ∧
        (∀ pt ∈ exts, pureF pt.2 = true ∧
          ∀ x ∈ leavesF pt.2, x.1 ≠ [] ∧ ∀ s ∈ x.1, s ≠ []) ∧
        (exts.bind (fun pt => (leavesF pt.2).map
          (fun x => (pt.1 ++ ':' :: renderDotted x.1, x.2)))).Perm
          ((taggedS gs).map tripleRender) := by
  intro gs
  induction gs with
  | nil =>
    intro _ _
    exact ⟨[], rfl, fun pt hpt => absurd hpt (List.not_mem_nil pt), List.Perm.nil⟩
  | cons g tl ih =>
    intro htag hpw
    obtain ⟨p, frs⟩ := g
    have hfgood : ∀ fr ∈ frs, fr.1 ≠ [] ∧ (∀ s ∈ fr.1, goodSeg s = true) ∧
        goodVal fr.2 = true := by
      intro fr hfr
      have hmem : (p, fr.1, fr.2) ∈ taggedS ((p, frs) :: tl) := by
        rw [taggedS_cons]
        exact List.mem_append.mpr (Or.inl (List.mem_map_of_mem _ hfr))
      exact htag _ hmem
    have hfpw : List.Pairwise (fun a b => ¬ a.1 <+: b.1 ∧ ¬ b.1 <+: a.1) frs :=
      hpw (p, frs) (List.mem_cons_self _ _)
    obtain ⟨tree', hbt, hpure, hleaves⟩ := buildTree_inserts frs [] rfl hfgood
      (by intro fr _ q hq; simp [leavesF] at hq) hfpw
    have hperm2 : (leavesF tree').Perm frs := by simpa [leavesF] using hleaves
    have hlv : ∀ x ∈ leavesF tree', x.1 ≠ [] ∧ ∀ s ∈ x.1, s ≠ [] := by
      intro x hx
      have hxfrs : x ∈ frs := hperm2.mem_iff.mp hx
      obtain ⟨h1, h2, _⟩ := hfgood x hxfrs
      exact ⟨h1, fun s hs => (goodSeg_parts (h2 s hs)).1⟩
    obtain ⟨exts', hext, hprops, hbind⟩ := ih
      (fun t ht => htag t
        (by rw [taggedS_cons]; exact List.mem_append.mpr (Or.inr ht)))
      (fun q hq => hpw q (List.mem_cons_of_mem _ hq))
    have hstep : buildExtensions (((p, frs) :: tl).map renderGroup) =
        some ((p, tree') :: exts') := by
      simp only [List.map_cons, renderGroup]
      simp only [buildExtensions]
      simp only [hbt, hext]
      rfl
    refine ⟨(p, tree') :: exts', hstep, ?_, ?_⟩
    · intro pt hpt
      rcases List.mem_cons.mp hpt with rfl | h2
      · exact ⟨hpure, hlv⟩
      · exact hprops pt h2
    · have hbc : (((p, tree') :: exts').bind (fun pt => (leavesF pt.2).map
          (fun x => (pt.1 ++ ':' :: renderDotted x.1, x.2)))) =
          (leavesF tree').map (fun x => (p ++ ':' :: renderDotted x.1, x.2)) ++
            exts'.bind (fun pt => (leavesF pt.2).map
              (fun x => (pt.1 ++ ':' :: renderDotted x.1, x.2))) := rfl
      rw [hbc, taggedS_cons, List.map_append]
      refine List.Perm.append ?_ hbind
      have hmm : (frs.map (fun fr => (p, fr.1, fr.2))).map tripleRender =
          frs.map (fun fr => (p ++ ':' :: renderDotted fr.1, fr.2)) := by
        rw [List.map_map]
        rfl
      rw [hmm]
      exact hperm2.map _

/-- C2 (corrected), amended claim.  For record sequences whose keys are
namespaced dotted bracket-free paths (a colon-free namespace, nonempty path
segments free of the reader's special characters), pairwise
prefix-incomparable within each namespace, and whose values are scalars or
arrays of scalars (never objects), unflattening with the reader's merge and
re-flattening with the writer succeeds and yields a permutation of the
original records. -/
theorem c2_amended_roundtrip_on_scalar_records
    (recs : List XRec) (hgood : ∀ r ∈ recs, goodXRec r = true)
    (hpair : List.Pairwise incompXRec recs) :
    ∃ out, unflattenThenFlatten (recs.map renderXRec) = some out ∧
      out.Perm (recs.map renderXRec) := by
  have hptr : List.Pairwise tripleR (recs.map toTriple) := by
    rw [List.pairwise_map]
    exact hpair.imp (fun h => h)
  obtain ⟨gs', heq, hperm, htag'⟩ := groupExtAux_renders recs [] []
    hgood (fun t ht => absurd ht (List.not_mem_nil t)) hptr
  simp only [List.map_nil] at heq
  have hperm' : (taggedS gs').Perm (recs.map toTriple) := hperm
  have hptr' : List.Pairwise tripleR (taggedS gs') :=
    (List.Perm.pairwise_iff (fun h => tripleR_symm _ _ h) hperm').mpr hptr
  have hgpw : ∀ g ∈ gs',
      List.Pairwise (fun a b => ¬ a.1 <+: b.1 ∧ ¬ b.1 <+: a.1) g.2 := by
    intro g hg
    have hsub := taggedS_group_sublist gs' g hg
    have hpg : (g.2.map (fun fr => (g.1, fr.1, fr.2))).Pairwise tripleR :=
      List.Pairwise.sublist hsub hptr'
    rw [List.pairwise_map] at hpg
    exact hpg.imp (fun h => h rfl)
  obtain ⟨exts, hbe, hpt, hbind⟩ := buildExtensions_leaves gs' htag' hgpw
  have hge : (groupExtensions (recs.map renderXRec)).1 = gs'.map renderGroup := by
    unfold groupExtensions
    rw [heq]
  have hufl : unflattenThenFlatten (recs.map renderXRec) =
      some (flattenExtensionTrees exts []) := by
    unfold unflattenThenFlatten
    rw [hge, hbe]
  have hmapc : (recs.map toTriple).map tripleRender = recs.map renderXRec := by
    rw [List.map_map]
    rfl
  have hLperm : (exts.bind (fun pt => (leavesF pt.2).map
      (fun x => (pt.1 ++ ':' :: renderDotted x.1, x.2)))).Perm
      (recs.map renderXRec) := by
    refine hbind.trans ?_
    rw [← hmapc]
    exact hperm'.map tripleRender
  have hnd : List.Pairwise (fun a b : XRec =>
      ¬ (a.ns ++ ':' :: renderDotted a.segs) =
        (b.ns ++ ':' :: renderDotted b.segs)) recs := by
    refine List.Pairwise.imp_of_mem ?_ hpair
    intro a b ha hb hR he
    obtain ⟨hanc, hane, hasg, _⟩ := goodXRec_parts (hgood a ha)
    obtain ⟨hbnc, hbne, hbsg, _⟩ := goodXRec_parts (hgood b hb)
    obtain ⟨hns, hpp⟩ := colonKey_inj hanc hbnc he
    have hseq : a.segs = b.segs := renderDotted_inj a.segs b.segs hasg hbsg hpp
    exact (hR hns).1 (by rw [hseq])
  have hkeys : ((recs.map renderXRec).map Prod.fst).Nodup := by
    rw [List.map_map]
    exact List.pairwise_map.mpr hnd
  have hLkeys : ((exts.bind (fun pt => (leavesF pt.2).map
      (fun x => (pt.1 ++ ':' :: renderDotted x.1, x.2)))).map Prod.fst).Nodup :=
    (List.Perm.nodup_iff (hLperm.map Prod.fst)).mpr hkeys
  refine ⟨flattenExtensionTrees exts [], hufl, ?_⟩
  rw [flattenExtensionTrees_leaves exts [] hpt]
  rw [dictUpdate_fresh _ [] (fun k _ => rfl) hLkeys]
  rw [List.nil_append]
  exact hLperm

/-- Concrete records for the round-trip witness: two namespaces, a nested
dotted path, a scalar and a scalar-array value. -/
def c2recs : List XRec :=
  [⟨("ns".data), [("a".data), ("x".data)], JValue.int 1⟩,
   ⟨("ns".data), [("b".data)], JValue.arr [JValue.int 1, JValue.int 2]⟩,
   ⟨("m".data), [("a".data)], JValue.str ("hi".data)⟩]

instance : DecidableRel incompXRec := fun r1 r2 => by
  unfold incompXRec
  infer_instance

/-- Witness for the amended C2: the concrete well-formed record list
satisfies the hypotheses, and its unflatten-then-flatten round trip
succeeds with a permutation of the records. -/
theorem c2_amended_roundtrip_on_scalar_records_witness :
    (∀ r ∈ c2recs, goodXRec r = true) ∧ List.Pairwise incompXRec c2recs ∧
    ∃ out, unflattenThenFlatten (c2recs.map renderXRec) = some out ∧
      out.Perm (c2recs.map renderXRec) :=
  ⟨by decide, by decide,
   c2_amended_roundtrip_on_scalar_records c2recs (by decide) (by decide)⟩
